import Mathlib

/-!
Verification of the Command Execution Relay (claude-strategist).

Shallow embedding of the relay's core components, translated from the
TypeScript sources:
  * `src/src/relay.ts`               — dispatcher, auth, rate limiter, research guard, chunker
  * `src/unnamed/part_002` (doc 1)   — claude-runner (local/remote process executor)
  * `src/unnamed/part_003`           — atomic state cache (readState/writeState)
  * `src/src/helpers/db.ts`, `src/unnamed/part_001` — database helpers
External effects (filesystem, child processes, the psql client, JSON parsing)
are modeled by explicit oracles/parameters; machine integers are Nat/Int.
-/

namespace Relay

/-- Authorization check, translated from `src/src/relay.ts` lines 198-203
(`isAuthorized`).  `allowedUserId` models the module constant
`ALLOWED_USER_ID = process.env.DISCORD_USER_ID || ""`, so an absent
environment variable is the empty string.  The JS guard `if (!ALLOWED_USER_ID)`
fires exactly when that string is empty and throws; the throw is embedded as
`Except.error`. -/
def isAuthorized (allowedUserId userId : String) : Except String Bool :=
  if allowedUserId = "" then
    .error "DISCORD_USER_ID not set — refusing all requests (fail-closed)"
  else
    .ok (userId = allowedUserId)

end Relay

namespace ClaudeRunner

/-- Result record of one process-executor invocation, translated from the
`ClaudeRunResult` shape produced by `runClaudeLocal`/`runClaudeRemote` in
`src/unnamed/part_002`. -/
structure ClaudeRunResult where
  output : String
  exitCode : Int
  duration_ms : Nat
  error : Option String
deriving DecidableEq, Repr

/-- Autonomous behavior of one spawned child process, the environment input
to the executor's supervision logic: `exitTime` is when the child would exit
of its own accord (`none` = it would run forever), `ownExitCode` the code it
would then report, `killedExitCode` the code the dead process reports after
the timer's `proc.kill()` (a SIGTERM death reports non-zero), and `killGrace`
how long the child takes to die once killed. -/
structure ChildBehavior where
  exitTime : Option Nat
  stdout : String
  stderr : String
  ownExitCode : Int
  killedExitCode : Int
  killGrace : Nat
deriving DecidableEq, Repr

/-- The kill timer of `runClaudeLocal`/`runClaudeRemote` (`src/unnamed/part_002`
lines 62-66 and 171-175): `setTimeout(() => proc.kill(), timeout)` fires at
`timeout` and kills exactly the children that have not already exited. -/
def timerKills (timeoutMs : Nat) (b : ChildBehavior) : Bool :=
  match b.exitTime with
  | some t => decide (timeoutMs < t)
  | none => true

/-- When the executor's `await proc.exited` resolves: at the child's own exit
when it beat the timer, otherwise at the timeout plus the child's kill-death
latency.  (The `none` fallback of the not-killed branch is unreachable: a
child with no own exit time is always killed.) -/
def resolveTime (timeoutMs : Nat) (b : ChildBehavior) : Nat :=
  if timerKills timeoutMs b then timeoutMs + b.killGrace
  else
    match b.exitTime with
    | some t => t
    | none => 0

/-- Result construction shared by both executors (`src/unnamed/part_002`
lines 80-85 and 185-190), exactly as in the source:
`error := exitCode !== 0 ? (stderr || "Exit code N") : null`, where the JS
`||` takes the right operand exactly when `stderr` is empty.  Nothing other
than the collected streams, exit code and elapsed time enters the record. -/
def mkRunResult (stdout stderr : String) (exitCode : Int) (duration_ms : Nat) :
    ClaudeRunResult :=
  { output := stdout.trim
    exitCode := exitCode
    duration_ms := duration_ms
    error := if exitCode ≠ 0 then
        some (if stderr = "" then "Exit code " ++ toString exitCode else stderr)
      else none }

/-- Translation of `runClaudeLocal` (`src/unnamed/part_002` lines 51-97):
spawn, arm the kill timer, await the streams and the exit code — the code
reported by the kill when the timer fired, the child's own code otherwise —
and build the result record; `duration_ms = Date.now() - startTime` is the
resolution time. -/
def runClaudeLocal (timeoutMs : Nat) (b : ChildBehavior) : ClaudeRunResult :=
  mkRunResult b.stdout b.stderr
    (if timerKills timeoutMs b then b.killedExitCode else b.ownExitCode)
    (resolveTime timeoutMs b)

/-- Translation of `runClaudeRemote` (`src/unnamed/part_002` lines 161-203,
temp-file variant): identical supervision — same kill timer, same await, same
result construction. -/
def runClaudeRemote (timeoutMs : Nat) (b : ChildBehavior) : ClaudeRunResult :=
  mkRunResult b.stdout b.stderr
    (if timerKills timeoutMs b then b.killedExitCode else b.ownExitCode)
    (resolveTime timeoutMs b)

/-- Name of the ephemeral prompt file, from `src/unnamed/part_002` line 119:
`/tmp/claude-prompt-${Date.now()}.txt`. -/
def tmpFileName (now : Nat) : String :=
  "/tmp/claude-prompt-" ++ toString now ++ ".txt"

/-- Remote command string built by `runClaudeRemote`, translated from
`src/unnamed/part_002` lines 141-155.  The command checks out an optional
branch, sources the environment, reads the prompt from the temp file
(deleting it), and invokes `claude -p "$PROMPT"`; `allowedTools` entries are
appended single-quoted. -/
def buildRemoteCmd (projectRoot : String) (branch : Option String)
    (allowedTools : List String) (now : Nat) : String :=
  let tmp := tmpFileName now
  let c1 := "cd " ++ projectRoot
  let c2 := c1 ++ (match branch with
    | some b =>
        " && git fetch origin && git checkout -b " ++ b ++
          " origin/master 2>/dev/null || git checkout " ++ b
    | none => "")
  let c3 := c2 ++ " && source /etc/trading-signal-ai.env"
  let c4 := c3 ++ " && PROMPT=$(cat " ++ tmp ++ ") && rm -f " ++ tmp
  let c5 := c4 ++ " && claude -p \"$PROMPT\" --output-format text"
  allowedTools.foldl (fun acc t => acc ++ " --allowedTools \x27" ++ t ++ "\x27") c5

/-- Spawn plan of `runClaudeRemote` (temp-file variant), translated from
`src/unnamed/part_002` lines 108-169.  Step 1 spawns
`ssh user@host "cat > tmpFile"` with the prompt piped to its stdin
(lines 124-129); step 2 spawns `ssh user@host remoteCmd` (lines 162-169).
`user`, `host`, `projectRoot` model the `CT110_USER`, `CT110_HOST`,
`CT110_PROJECT_ROOT` env-or-default constants. -/
structure RemotePlan where
  writeCmdArgv : List String
  writeStdin : String
  execArgv : List String
deriving DecidableEq, Repr

/-- The two spawns `runClaudeRemote` performs, as a function of the prompt,
configuration and the `Date.now()` value sampled for the temp-file name. -/
def runClaudeRemotePlan (prompt user host projectRoot : String)
    (branch : Option String) (allowedTools : List String) (now : Nat) :
    RemotePlan :=
  { writeCmdArgv := ["ssh", user ++ "@" ++ host, "cat > " ++ tmpFileName now]
    writeStdin := prompt
    execArgv := ["ssh", user ++ "@" ++ host,
      buildRemoteCmd projectRoot branch allowedTools now] }

end ClaudeRunner

/-- C1: with the authorized-principal configuration absent or empty
(`DISCORD_USER_ID` unset, hence `ALLOWED_USER_ID = ""`), `isAuthorized`
raises the fail-closed authorization error for every principal id, including
the empty string, and in particular never returns `true` for any caller. -/
theorem isAuthorized_fail_closed :
    (∀ userId : String,
      Relay.isAuthorized "" userId =
        .error "DISCORD_USER_ID not set — refusing all requests (fail-closed)") ∧
    (∀ (userId : String) (b : Bool), Relay.isAuthorized "" userId ≠ .ok b) := by
  constructor
  · intro userId
    simp [Relay.isAuthorized]
  · intro userId b
    simp [Relay.isAuthorized]

/-- C2: the remote command string that `runClaudeRemote` passes to the ssh
spawn is independent of the prompt — any two prompts submitted under the same
conditions (same configuration, same sampled clock) yield the same write
command and the same execution command, and the prompt reaches the remote
host only as the stdin payload of the temp-file write step. -/
theorem runClaudeRemote_prompt_side_channel :
    ∀ (p₁ p₂ user host root : String) (branch : Option String)
      (tools : List String) (now : Nat),
      (ClaudeRunner.runClaudeRemotePlan p₁ user host root branch tools now).execArgv =
        (ClaudeRunner.runClaudeRemotePlan p₂ user host root branch tools now).execArgv ∧
      (ClaudeRunner.runClaudeRemotePlan p₁ user host root branch tools now).writeCmdArgv =
        (ClaudeRunner.runClaudeRemotePlan p₂ user host root branch tools now).writeCmdArgv ∧
      (ClaudeRunner.runClaudeRemotePlan p₁ user host root branch tools now).writeStdin = p₁ := by
  intro p₁ p₂ user host root branch tools now
  exact ⟨rfl, rfl, rfl⟩

/-- C5 counterexample: the executor performs no timeout classification.  A
run whose child was killed by the timer (it would never exit on its own;
`timerKills` fires at the 1000ms timeout; the dead process reports exit code
143) produces an `ExecutionResult` that is *equal* to that of an ordinary
non-timeout failure under a 300000ms timeout whose child exited by itself at
1000ms with code 143 — same output, same error `some "Exit code 143"`, same
duration — so the error field carries no timeout classification
distinguishable from other failures. -/
theorem runClaudeLocal_no_timeout_classification :
    ClaudeRunner.timerKills 1000
      ⟨none, "", "", 0, 143, 0⟩ = true ∧
    ClaudeRunner.timerKills 300000
      ⟨some 1000, "", "", 143, 0, 0⟩ = false ∧
    ClaudeRunner.runClaudeLocal 1000 ⟨none, "", "", 0, 143, 0⟩ =
      ClaudeRunner.runClaudeLocal 300000 ⟨some 1000, "", "", 143, 0, 0⟩ ∧
    (ClaudeRunner.runClaudeLocal 1000 ⟨none, "", "", 0, 143, 0⟩).error =
      some "Exit code 143" := by
  exact ⟨rfl, by decide, rfl, rfl⟩

/-- C5 amended: if the child has not exited by the configured timeout, the
timer of `runClaudeLocal` (and `runClaudeRemote`) kills it, the call resolves
at exactly the timeout plus the child's kill-death grace — and in all cases
resolves within timeout plus that grace, never hanging — and the returned
result's error field is non-null whenever the killed child reports a
non-zero exit code (the stderr text, or `"Exit code N"` when stderr is
empty); but that error is the generic failure text with no timeout-specific
classification, the result being a function of the collected streams, exit
code and duration only. -/
theorem claude_runner_timeout_behavior :
    (∀ (timeoutMs : Nat) (b : ClaudeRunner.ChildBehavior),
      (∀ t, b.exitTime = some t → timeoutMs < t) →
      ClaudeRunner.timerKills timeoutMs b = true ∧
      ClaudeRunner.resolveTime timeoutMs b = timeoutMs + b.killGrace ∧
      (b.killedExitCode ≠ 0 →
        (ClaudeRunner.runClaudeLocal timeoutMs b).error =
          some (if b.stderr = "" then "Exit code " ++ toString b.killedExitCode
            else b.stderr) ∧
        (ClaudeRunner.runClaudeRemote timeoutMs b).error =
          some (if b.stderr = "" then "Exit code " ++ toString b.killedExitCode
            else b.stderr))) ∧
    (∀ (timeoutMs : Nat) (b : ClaudeRunner.ChildBehavior),
      ClaudeRunner.resolveTime timeoutMs b ≤ timeoutMs + b.killGrace) ∧
    (∀ (timeoutMs : Nat) (b : ClaudeRunner.ChildBehavior),
      (if ClaudeRunner.timerKills timeoutMs b then b.killedExitCode
        else b.ownExitCode) ≠ 0 →
      (ClaudeRunner.runClaudeLocal timeoutMs b).error.isSome ∧
      (ClaudeRunner.runClaudeRemote timeoutMs b).error.isSome) := by
  refine ⟨?_, ?_, ?_⟩
  · intro timeoutMs b hlate
    have hkill : ClaudeRunner.timerKills timeoutMs b = true := by
      unfold ClaudeRunner.timerKills
      cases hE : b.exitTime with
      | none => rfl
      | some t => simpa using hlate t hE
    refine ⟨hkill, ?_, ?_⟩
    · unfold ClaudeRunner.resolveTime
      rw [if_pos hkill]
    · intro hnz
      constructor <;>
        simp [ClaudeRunner.runClaudeLocal, ClaudeRunner.runClaudeRemote,
          ClaudeRunner.mkRunResult, hkill, hnz]
  · intro timeoutMs b
    unfold ClaudeRunner.resolveTime
    split
    · exact le_refl _
    · rename_i hnk
      cases hE : b.exitTime with
      | none => simp
      | some t =>
        show t ≤ timeoutMs + b.killGrace
        have ht : ClaudeRunner.timerKills timeoutMs b = decide (timeoutMs < t) := by
          unfold ClaudeRunner.timerKills
          rw [hE]
        rw [ht] at hnk
        simp at hnk
        omega
  · intro timeoutMs b hnz
    constructor <;>
      simp [ClaudeRunner.runClaudeLocal, ClaudeRunner.runClaudeRemote,
        ClaudeRunner.mkRunResult, hnz]

/-- C5 amended witness: a child that never exits on its own, under a 300000ms
timeout with 50ms kill grace and killed exit code 143: the timer kills it,
the call resolves at 300050ms, and the error is the stderr text `"boom"`. -/
theorem claude_runner_timeout_behavior_witness :
    ((∀ t, (⟨none, "", "boom", 0, 143, 50⟩ :
        ClaudeRunner.ChildBehavior).exitTime = some t → 300000 < t) ∧
      (143 : Int) ≠ 0) ∧
    ClaudeRunner.timerKills 300000 ⟨none, "", "boom", 0, 143, 50⟩ = true ∧
    ClaudeRunner.resolveTime 300000 ⟨none, "", "boom", 0, 143, 50⟩ = 300050 ∧
    (ClaudeRunner.runClaudeLocal 300000 ⟨none, "", "boom", 0, 143, 50⟩).error =
      some "boom" := by
  have h := claude_runner_timeout_behavior.1 300000
    ⟨none, "", "boom", 0, 143, 50⟩ (by intro t ht; cases ht)
  refine ⟨⟨(by intro t ht; cases ht), (by decide)⟩, h.1,
    (by simpa using h.2.1), ?_⟩
  have h2 := (h.2.2 (by decide)).1
  simpa using h2

namespace Retry

/-- Modelled from the spec: the Retry/Backoff Wrapper `withRetry` (spec §4.4)
is not present under `src/` — no repository source file defines it — so it is
modeled from the spec's words: "Invokes `operation`; on failure, waits
`baseDelay * 2^(attempt-1)` (exponential) before retrying, up to `maxRetries`
attempts; re-raises the last failure if all attempts are exhausted."  The
operation is an oracle indexed by the attempt number (1-based); the model
returns the final outcome together with the number of invocations performed
and the total delay waited. -/
def withRetryGo (op : Nat → Except String α) (maxRetries baseDelay : Nat)
    (fuel : Nat) (attempt : Nat) (delayAcc : Nat) :
    Except String α × Nat × Nat :=
  match fuel with
  | 0 => (op attempt, attempt, delayAcc)
  | fuel + 1 =>
    match op attempt with
    | .ok a => (.ok a, attempt, delayAcc)
    | .error e =>
      if maxRetries ≤ attempt then (.error e, attempt, delayAcc)
      else withRetryGo op maxRetries baseDelay fuel (attempt + 1)
        (delayAcc + baseDelay * 2 ^ (attempt - 1))

/-- Modelled from the spec: `withRetry` entry point — attempt 1, no delay yet;
the fuel `maxRetries` bounds the recursion (at most `maxRetries` attempts). -/
def withRetry (op : Nat → Except String α) (maxRetries baseDelay : Nat) :
    Except String α × Nat × Nat :=
  withRetryGo op maxRetries baseDelay maxRetries 1 0

end Retry

/-- C9: `withRetry` invokes the operation, backs off exponentially
(`baseDelay * 2^(attempt-1)` after failed attempt `attempt`), retries up to
`maxRetries` attempts and re-raises the last failure when exhausted; an
operation that fails twice then succeeds, called with `maxRetries = 3`,
returns the success result after exactly 3 invocations with total delay
`baseDelay + 2*baseDelay`. -/
theorem withRetry_spec :
    (∀ (op : Nat → Except String α) (a : α) (e₁ e₂ : String) (base : Nat),
      op 1 = .error e₁ → op 2 = .error e₂ → op 3 = .ok a →
        Retry.withRetry op 3 base = (.ok a, 3, base + 2 * base)) ∧
    (∀ (op : Nat → Except String α) (e : String) (base : Nat),
      (∀ i, 1 ≤ i → i ≤ 3 → op i = .error e) →
        Retry.withRetry op 3 base = (.error e, 3, base + 2 * base)) := by
  constructor
  · intro op a e₁ e₂ base h1 h2 h3
    simp [Retry.withRetry, Retry.withRetryGo, h1, h2, h3]
    ring
  · intro op e base hall
    have h1 := hall 1 (by omega) (by omega)
    have h2 := hall 2 (by omega) (by omega)
    have h3 := hall 3 (by omega) (by omega)
    simp [Retry.withRetry, Retry.withRetryGo, h1, h2, h3]
    ring

/-- C9 witness: the fails-twice-then-succeeds schedule at `baseDelay = 10`
returns the success after exactly 3 invocations with total delay 30. -/
theorem withRetry_spec_witness :
    Retry.withRetry
      (fun i => if i = 3 then Except.ok (0 : Nat) else Except.error "transient")
      3 10 = (.ok 0, 3, 30) := by
  have h := withRetry_spec.1
    (fun i => if i = 3 then Except.ok (0 : Nat) else Except.error "transient")
    0 "transient" "transient" 10 (by rfl) (by rfl) (by rfl)
  simpa using h

namespace Db

/-- Oracle for one `psql` invocation (`query` in `src/src/helpers/db.ts`
lines 15-31): `.ok stdout` models a zero-exit run returning trimmed stdout,
`.error msg` models the `throw new Error(...)` on non-zero exit. -/
def Query := String → Except String String

/-- JS `s.substring(0, n)`: the first `n` characters. -/
def jsTake (s : String) (n : Nat) : String := String.mk (s.data.take n)

/-- JS `s.replace(/'/g, "''")`: double every single quote (SQL escaping). -/
def sqlEscape (s : String) : String := s.replace "\x27" "\x27\x27"

/-- Role of a conversation row (`"user" | "assistant"`). -/
inductive Role | user | assistant
deriving DecidableEq, Repr

/-- Render a role as it is interpolated into the SQL text. -/
def Role.toStr : Role → String
  | .user => "user"
  | .assistant => "assistant"

/-- Parameters of `logConversation` (`src/src/helpers/db.ts` lines 36-41).
JS numbers are modeled as integers (the durations are integer milliseconds). -/
structure ConvParams where
  role : Role
  content : String
  command : Option String
  duration_ms : Option Int

/-- The INSERT statement `logConversation` builds (`src/src/helpers/db.ts`
lines 42-51): content is quote-escaped and truncated to 10000 characters; the
`command` interpolation uses JS truthiness, so `undefined`, `null` and the
empty string all render as `NULL`; `duration_ms ?? "NULL"` renders only
null/undefined as `NULL`. -/
def logConversationSql (p : ConvParams) : String :=
  let content := jsTake (sqlEscape p.content) 10000
  let command := match p.command with
    | some c => if c = "" then "NULL" else "\x27" ++ c ++ "\x27"
    | none => "NULL"
  let duration := match p.duration_ms with
    | some d => toString d
    | none => "NULL"
  "INSERT INTO strategist.conversations (role, content, command, duration_ms) " ++
    "VALUES (\x27" ++ p.role.toStr ++ "\x27, \x27" ++ content ++ "\x27, " ++
    command ++ ", " ++ duration ++ ")"

/-- Translation of `logConversation` (`src/src/helpers/db.ts` lines 36-55):
the whole body is wrapped in `try { ... } catch (err) { console.error(...) }`,
so a failing `query` is swallowed and the helper resolves to `void` either
way; an uncaught raise would be `.error`. -/
def logConversation (q : Query) (p : ConvParams) : Except String Unit :=
  match q (logConversationSql p) with
  | .ok _ => .ok ()
  | .error _ => .ok ()

/-- Parsed conversation row (`getRecentConversations` return element). -/
structure ConvRow where
  role : String
  content : String
  created_at : String
deriving DecidableEq, Repr

/-- Row parsing in `getRecentConversations` (`src/src/helpers/db.ts` lines
72-77): destructure on `|`, `pop()` the timestamp (or `""` when absent),
re-join the middle with `|` since content may contain `|`. -/
def parseConvRow (row : String) : ConvRow :=
  let parts := row.splitOn "|"
  let role := parts.headD ""
  let rest := parts.tail
  let created_at := (rest.getLastD "")
  let content := String.intercalate "|" rest.dropLast
  ⟨role, content, created_at⟩

/-- Translation of `getRecentConversations` (`src/src/helpers/db.ts` lines
61-81): builds the SELECT, returns `[]` when stdout is empty (`if (!result)`)
and `[]` on any query failure (the `catch`). -/
def getRecentConversations (q : Query) (limit : Int) :
    Except String (List ConvRow) :=
  match q ("SELECT role, content, created_at FROM strategist.conversations " ++
      "ORDER BY created_at DESC LIMIT " ++ toString limit) with
  | .error _ => .ok []
  | .ok result =>
    if result = "" then .ok []
    else .ok ((result.splitOn "\n").map parseConvRow)

/-- Memory type enum of `saveMemory` (`src/unnamed/part_001` line 87). -/
inductive MemType | fact | observation | lesson | preference
deriving DecidableEq, Repr

/-- Render a memory type as interpolated into the SQL text. -/
def MemType.toStr : MemType → String
  | .fact => "fact"
  | .observation => "observation"
  | .lesson => "lesson"
  | .preference => "preference"

/-- Parameters of `saveMemory` (`src/unnamed/part_001` lines 86-92); the
`confidence` number is modeled as an integer (numeral rendering is immaterial
to the error-containment claim). -/
structure MemParams where
  type : MemType
  content : String
  context : Option String
  confidence : Option Int
  source : Option String

/-- The INSERT statement `saveMemory` builds (`src/unnamed/part_001` lines
93-106); `context`/`source` use JS truthiness (empty string renders `NULL`),
`confidence ?? 1.0` defaults only null/undefined. -/
def saveMemorySql (p : MemParams) : String :=
  let content := jsTake (sqlEscape p.content) 5000
  let context := match p.context with
    | some c => if c = "" then "NULL" else "\x27" ++ jsTake (sqlEscape c) 1000 ++ "\x27"
    | none => "NULL"
  let confidence := match p.confidence with
    | some c => toString c
    | none => "1.0"
  let source := match p.source with
    | some s => if s = "" then "NULL" else "\x27" ++ sqlEscape s ++ "\x27"
    | none => "NULL"
  "INSERT INTO strategist.memory (type, content, context, confidence, source) " ++
    "VALUES (\x27" ++ p.type.toStr ++ "\x27, \x27" ++ content ++ "\x27, " ++
    context ++ ", " ++ confidence ++ ", " ++ source ++ ")"

/-- Translation of `saveMemory` (`src/unnamed/part_001` lines 86-110): the
`catch` swallows any query failure. -/
def saveMemory (q : Query) (p : MemParams) : Except String Unit :=
  match q (saveMemorySql p) with
  | .ok _ => .ok ()
  | .error _ => .ok ()

/-- Parsed memory row; `confidence` keeps the raw numeric text fed to JS
`parseFloat`, whose numeric reading is abstracted by the caller-supplied
`parseNum` oracle. -/
structure MemRow (α : Type) where
  type : String
  content : String
  confidence : α
deriving DecidableEq, Repr

/-- Row parsing in `getMemories` (`src/unnamed/part_001` lines 129-134):
destructure on `|`, `pop()` the confidence (defaulting `"1.0"`), re-join the
middle with `|`. -/
def parseMemRow (parseNum : String → α) (row : String) : MemRow α :=
  let parts := row.splitOn "|"
  let memType := parts.headD ""
  let rest := parts.tail
  let confTxt := rest.getLastD ""
  let confidence := parseNum (if confTxt = "" then "1.0" else confTxt)
  let content := String.intercalate "|" rest.dropLast
  ⟨memType, content, confidence⟩

/-- Translation of `getMemories` (`src/unnamed/part_001` lines 116-138):
optional type filter via truthiness, `[]` on empty stdout, `[]` on any query
failure.  `parseNum` models `parseFloat` (total in JS, NaN on garbage). -/
def getMemories (parseNum : String → α) (q : Query) (type : Option String)
    (limit : Int) : Except String (List (MemRow α)) :=
  let typeFilter := match type with
    | some t => if t = "" then "" else "WHERE type = \x27" ++ t ++ "\x27"
    | none => ""
  match q ("SELECT type, content, confidence FROM strategist.memory " ++
      typeFilter ++ " ORDER BY confidence DESC, created_at DESC LIMIT " ++
      toString limit) with
  | .error _ => .ok []
  | .ok result =>
    if result = "" then .ok []
    else .ok ((result.splitOn "\n").map (parseMemRow parseNum))

/-- Strategy row returned by `getStrategy`. -/
structure StrategyRow where
  strategy_id : String
  status : String
  backtest_results : Option String
deriving DecidableEq, Repr

/-- Translation of `getStrategy` (`src/unnamed/part_001` lines 143-165):
quote-escapes the id, returns `null` on empty stdout and on any query
failure; `rest.join("|") || null` renders an empty join as `null`. -/
def getStrategy (q : Query) (strategyId : String) :
    Except String (Option StrategyRow) :=
  match q ("SELECT strategy_id, status, backtest_results::text " ++
      "FROM strategist.strategies WHERE strategy_id = \x27" ++
      sqlEscape strategyId ++ "\x27") with
  | .error _ => .ok none
  | .ok result =>
    if result = "" then .ok none
    else
      let parts := result.splitOn "|"
      let strategy_id := parts.headD ""
      let status := (parts.tail).headD ""
      let rest := (parts.tail).tail
      let joined := String.intercalate "|" rest
      .ok (some ⟨strategy_id, status, if joined = "" then none else some joined⟩)

/-- Parameters of `logCronRun` (`src/unnamed/part_001` lines 170-175). -/
structure CronParams where
  job_name : String
  status : String
  duration_ms : Option Int
  error_message : Option String

/-- Translation of `logCronRun` (`src/unnamed/part_001` lines 170-189): the
`catch` swallows any query failure. -/
def logCronRun (q : Query) (p : CronParams) : Except String Unit :=
  let duration := match p.duration_ms with
    | some d => toString d
    | none => "NULL"
  let errorMsg := match p.error_message with
    | some e => if e = "" then "NULL"
        else "\x27" ++ jsTake (sqlEscape e) 2000 ++ "\x27"
    | none => "NULL"
  match q ("INSERT INTO strategist.cron_log (job_name, status, duration_ms, error_message) " ++
      "VALUES (\x27" ++ p.job_name ++ "\x27, \x27" ++ p.status ++ "\x27, " ++
      duration ++ ", " ++ errorMsg ++ ")") with
  | .ok _ => .ok ()
  | .error _ => .ok ()

/-- Translation of `getLastCronSuccess` (`src/unnamed/part_001` lines
195-208): `result || null` renders empty stdout as `null`; the `catch`
returns `null` on any query failure. -/
def getLastCronSuccess (q : Query) (jobName : String) :
    Except String (Option String) :=
  match q ("SELECT created_at FROM strategist.cron_log " ++
      "WHERE job_name = \x27" ++ jobName ++ "\x27 AND status = \x27success\x27 " ++
      "ORDER BY created_at DESC LIMIT 1") with
  | .error _ => .ok none
  | .ok result => if result = "" then .ok none else .ok (some result)

end Db

/-- C10: every exported database helper catches any failure of the underlying
psql invocation and resolves normally — `logConversation`, `saveMemory` and
`logCronRun` to `void`, `getRecentConversations` and `getMemories` to a list,
`getStrategy` and `getLastCronSuccess` to a nullable value — and when the
query oracle fails (database outage) each returns its benign default
(`void`, `[]`, or `null`); no helper ever propagates an exception. -/
theorem db_helpers_never_raise :
    (∀ (q : Db.Query) (p : Db.ConvParams), Db.logConversation q p = .ok ()) ∧
    (∀ (q : Db.Query) (n : Int), (Db.getRecentConversations q n).isOk) ∧
    (∀ (q : Db.Query) (p : Db.MemParams), Db.saveMemory q p = .ok ()) ∧
    (∀ (α : Type) (pf : String → α) (q : Db.Query) (t : Option String) (n : Int),
      (Db.getMemories pf q t n).isOk) ∧
    (∀ (q : Db.Query) (sid : String), (Db.getStrategy q sid).isOk) ∧
    (∀ (q : Db.Query) (p : Db.CronParams), Db.logCronRun q p = .ok ()) ∧
    (∀ (q : Db.Query) (j : String), (Db.getLastCronSuccess q j).isOk) ∧
    (∀ (q : Db.Query), (∀ s, ∃ e, q s = .error e) →
      ∀ (α : Type) (pf : String → α) (n : Int) (t : Option String)
        (sid j : String),
        Db.getRecentConversations q n = .ok [] ∧
        Db.getMemories pf q t n = .ok [] ∧
        Db.getStrategy q sid = .ok none ∧
        Db.getLastCronSuccess q j = .ok none) := by
  refine ⟨?_, ?_, ?_, ?_, ?_, ?_, ?_, ?_⟩
  · intro q p
    unfold Db.logConversation
    cases q (Db.logConversationSql p) <;> rfl
  · intro q n
    unfold Db.getRecentConversations
    cases q _ with
    | error e => rfl
    | ok r => dsimp only; split <;> rfl
  · intro q p
    unfold Db.saveMemory
    cases q (Db.saveMemorySql p) <;> rfl
  · intro α pf q t n
    unfold Db.getMemories
    dsimp only
    split
    · rfl
    · split <;> rfl
  · intro q sid
    unfold Db.getStrategy
    cases q _ with
    | error e => rfl
    | ok r => dsimp only; split <;> rfl
  · intro q p
    unfold Db.logCronRun
    dsimp only
    split <;> rfl
  · intro q j
    unfold Db.getLastCronSuccess
    cases q _ with
    | error e => rfl
    | ok r => dsimp only; split <;> rfl
  · intro q hq α pf n t sid j
    refine ⟨?_, ?_, ?_, ?_⟩
    · unfold Db.getRecentConversations
      obtain ⟨e, he⟩ := hq ("SELECT role, content, created_at FROM strategist.conversations " ++
        "ORDER BY created_at DESC LIMIT " ++ toString n)
      rw [he]
    · unfold Db.getMemories
      dsimp only
      obtain ⟨e, he⟩ := hq _
      rw [he]
    · unfold Db.getStrategy
      obtain ⟨e, he⟩ := hq _
      rw [he]
    · unfold Db.getLastCronSuccess
      obtain ⟨e, he⟩ := hq _
      rw [he]

/-- C10 witness: under a query oracle that always fails (database outage),
the four fetch helpers concretely return their benign defaults. -/
theorem db_helpers_never_raise_witness :
    Db.getRecentConversations (fun _ => .error "outage") 10 = .ok [] ∧
    Db.getMemories (fun s => s) (fun _ => .error "outage") none 10 = .ok [] ∧
    Db.getStrategy (fun _ => .error "outage") "momentum-1" = .ok none ∧
    Db.getLastCronSuccess (fun _ => .error "outage") "market-analysis" = .ok none := by
  have h := db_helpers_never_raise.2.2.2.2.2.2.2
    (fun _ => .error "outage") (fun s => ⟨"outage", rfl⟩)
    String (fun s => s) 10 none "momentum-1" "market-analysis"
  exact h

namespace Relay

/-- Sliding-window size, from `src/src/relay.ts` line 229:
`RATE_LIMIT_WINDOW_MS = 60_000`. -/
def RATE_LIMIT_WINDOW_MS : Nat := 60000

/-- Window capacity, from `src/src/relay.ts` line 230: `RATE_LIMIT_MAX = 5`. -/
def RATE_LIMIT_MAX : Nat := 5

/-- The purge loop of `checkRateLimit` (`src/src/relay.ts` lines 236-238):
`while (ts.length > 0 && ts[0] <= now - WINDOW) ts.shift()` repeatedly drops
the head while it is expired, i.e. drops the longest expired prefix.  The JS
comparison `t <= now - WINDOW` over numbers is `t + WINDOW <= now` over
naturals. -/
def purgeExpired (now : Nat) (ts : List Nat) : List Nat :=
  ts.dropWhile (fun t => t + RATE_LIMIT_WINDOW_MS ≤ now)

/-- Translation of `checkRateLimit` (`src/src/relay.ts` lines 233-244) as a
state transformer: the mutable module array `claudeSpawnTimestamps` is the
explicit state, `now` is the sampled `Date.now()`; returns the admission
verdict and the updated window. -/
def checkRateLimit (now : Nat) (ts : List Nat) : Bool × List Nat :=
  let purged := purgeExpired now ts
  if RATE_LIMIT_MAX ≤ purged.length then (false, purged)
  else (true, purged ++ [now])

/-- A sequence of `checkRateLimit` calls at the given times, threading the
window state; returns the verdicts in call order and the final window. -/
def runLimiter : List Nat → List Nat → List Bool × List Nat
  | [], st => ([], st)
  | t :: ts, st =>
    let r := checkRateLimit t st
    let rest := runLimiter ts r.2
    (r.1 :: rest.1, rest.2)

/-- The purge removes nothing when every stored timestamp is still inside the
window at the call time. -/
theorem purgeExpired_of_fresh (now : Nat) (st : List Nat)
    (h : ∀ x ∈ st, now < x + RATE_LIMIT_WINDOW_MS) :
    purgeExpired now st = st := by
  cases st with
  | nil => rfl
  | cons a l =>
    have ha := h a (by simp)
    simp [purgeExpired, List.dropWhile_cons, Nat.not_le.mpr ha]

/-- Verdicts of a call sequence whose times all lie inside one window
`[t₀, t₀ + WINDOW)` starting from a window whose entries are all `≥ t₀`:
call `i` (0-based) is admitted iff the starting count plus `i` is below
capacity. -/
theorem runLimiter_inWindow (t₀ : Nat) :
    ∀ (times st : List Nat),
      (∀ t ∈ times, t₀ ≤ t ∧ t < t₀ + RATE_LIMIT_WINDOW_MS) →
      (∀ x ∈ st, t₀ ≤ x) →
      (runLimiter times st).1 =
        (List.range times.length).map
          (fun i => decide (st.length + i < RATE_LIMIT_MAX)) := by
  intro times
  induction times with
  | nil => intro st _ _; rfl
  | cons t ts ih =>
    intro st htimes hst
    have ht := htimes t (by simp)
    have hpurge : purgeExpired t st = st := by
      apply purgeExpired_of_fresh
      intro x hx
      have := hst x hx
      omega
    have htail : ∀ u ∈ ts, t₀ ≤ u ∧ u < t₀ + RATE_LIMIT_WINDOW_MS := by
      intro u hu; exact htimes u (by simp [hu])
    rw [List.length_cons, List.range_succ_eq_map, List.map_cons, List.map_map]
    by_cases hlen : RATE_LIMIT_MAX ≤ st.length
    · have hstep : checkRateLimit t st = (false, st) := by
        simp [checkRateLimit, hpurge, hlen]
      have hrec := ih st htail hst
      simp only [runLimiter, hstep, hrec]
      congr 1
      · simp; omega
      · apply List.map_congr_left
        intro i _
        simp only [Function.comp]
        have h1 : ¬ st.length + i < RATE_LIMIT_MAX := by omega
        have h2 : ¬ st.length + (i + 1) < RATE_LIMIT_MAX := by omega
        simp [h1, h2]
    · have hstep : checkRateLimit t st = (true, st ++ [t]) := by
        simp [checkRateLimit, hpurge, hlen]
      have hst' : ∀ x ∈ st ++ [t], t₀ ≤ x := by
        intro x hx
        rcases List.mem_append.mp hx with h | h
        · exact hst x h
        · simp at h; omega
      have hrec := ih (st ++ [t]) htail hst'
      simp only [runLimiter, hstep, hrec]
      congr 1
      · simp; omega
      · apply List.map_congr_left
        intro i _
        simp only [Function.comp, List.length_append, List.length_cons,
          List.length_nil]
        have harith : st.length + 1 + i = st.length + (i + 1) := by omega
        rw [harith]

end Relay

/-- C4: `checkRateLimit` is a 60-second sliding window of capacity 5.
Single call: it purges expired timestamps, then admits (appending the current
time and returning true) iff fewer than 5 remain, and otherwise returns false
without mutating the window beyond the purge.  Sequence: for any calls all
within one window starting from an empty window, exactly the first 5 are
admitted and all later calls are rejected.  Recovery: once every stored
timestamp has aged past the window, admission succeeds again. -/
theorem checkRateLimit_sliding_window :
    (∀ (now : Nat) (ts : List Nat),
      ((Relay.purgeExpired now ts).length < Relay.RATE_LIMIT_MAX →
        Relay.checkRateLimit now ts =
          (true, Relay.purgeExpired now ts ++ [now])) ∧
      (Relay.RATE_LIMIT_MAX ≤ (Relay.purgeExpired now ts).length →
        Relay.checkRateLimit now ts = (false, Relay.purgeExpired now ts))) ∧
    (∀ (t₀ : Nat) (times : List Nat),
      (∀ t ∈ times, t₀ ≤ t ∧ t < t₀ + Relay.RATE_LIMIT_WINDOW_MS) →
      (Relay.runLimiter times []).1 =
        (List.range times.length).map
          (fun i => decide (i < Relay.RATE_LIMIT_MAX))) ∧
    (∀ (now : Nat) (st : List Nat),
      (∀ t ∈ st, t + Relay.RATE_LIMIT_WINDOW_MS ≤ now) →
      (Relay.checkRateLimit now st).1 = true) := by
  refine ⟨?_, ?_, ?_⟩
  · intro now ts
    constructor
    · intro h
      simp [Relay.checkRateLimit, Nat.not_le.mpr h]
    · intro h
      simp [Relay.checkRateLimit, h]
  · intro t₀ times htimes
    have h := Relay.runLimiter_inWindow t₀ times [] htimes (by intro x hx; simp at hx)
    simpa using h
  · intro now st h
    have hpurge : Relay.purgeExpired now st = [] := by
      unfold Relay.purgeExpired
      rw [List.dropWhile_eq_nil_iff]
      intro x hx
      simpa using h x hx
    simp [Relay.checkRateLimit, hpurge, Relay.RATE_LIMIT_MAX]

/-- C4 witness: seven calls in one window from an empty window — the first 5
are admitted, the remaining 2 rejected; and a full window later a stale
window admits again. -/
theorem checkRateLimit_sliding_window_witness :
    (Relay.runLimiter [100, 101, 102, 103, 104, 105, 106] []).1 =
      [true, true, true, true, true, false, false] ∧
    (Relay.checkRateLimit 61000 [100, 200]).1 = true := by
  constructor
  · have h := checkRateLimit_sliding_window.2.1 100
      [100, 101, 102, 103, 104, 105, 106] (by decide)
    simpa using h
  · exact checkRateLimit_sliding_window.2.2 61000 [100, 200] (by decide)

namespace StateCache

/-- A filesystem, as a map from paths to file contents (`none` = no file).
Directories are tracked only implicitly: `mkdir` affects no file content. -/
def Fs := String → Option String

/-- Point update of a filesystem. -/
def upd (fs : Fs) (p : String) (v : Option String) : Fs :=
  fun q => if q = p then v else fs q

/-- The filesystem operations `writeState` issues (`src/unnamed/part_003`
lines 28-42): `mkdir -p` on the state directory, `writeFile` of the
serialized document to the temp path, `rename` of the temp path over the
final path. -/
inductive FsOp
  | mkdirRec (dir : String)
  | writeFileOp (path contents : String)
  | renameOp (src dst : String)

/-- Full effect of one operation.  `rename` is atomic: it moves the source
contents over the destination in one step (POSIX `rename(2)` semantics). -/
def applyOp (fs : Fs) : FsOp → Fs
  | .mkdirRec _ => fs
  | .writeFileOp p c => upd fs p (some c)
  | .renameOp src dst =>
    match fs src with
    | some c => upd (upd fs src none) dst (some c)
    | none => fs

/-- Filesystem states observable while one operation is in progress.  A plain
`writeFile` is not atomic: a concurrent reader may see any prefix of the
contents already flushed to the target path.  `mkdir` and `rename` expose no
intermediate file state. -/
def midStates (fs : Fs) : FsOp → List Fs
  | .mkdirRec _ => []
  | .writeFileOp p c =>
    (List.range (c.length + 1)).map
      (fun k => upd fs p (some (String.mk (c.data.take k))))
  | .renameOp _ _ => []

/-- All filesystem states observable at or between the steps of an operation
sequence, including mid-write states. -/
def execStates (fs : Fs) : List FsOp → List Fs
  | [] => [fs]
  | op :: ops => fs :: (midStates fs op ++ execStates (applyOp fs op) ops)

/-- Final filesystem after an operation sequence completes. -/
def execFinal (fs : Fs) (ops : List FsOp) : Fs :=
  ops.foldl applyOp fs

/-- Translation of `writeState` (`src/unnamed/part_003` lines 28-42) as its
sequence of filesystem operations: `filePath = join(STATE_DIR, filename)`,
`tmpPath = filePath + ".tmp"`; mkdir the state directory, write the full
serialization (`JSON.stringify(data, null, 2)`, modeled as the `serialized`
string) to `tmpPath`, then a single rename of `tmpPath` onto `filePath`. -/
def writeStatePlan (stateDir filename serialized : String) : List FsOp :=
  [ .mkdirRec stateDir,
    .writeFileOp (stateDir ++ "/" ++ filename ++ ".tmp") serialized,
    .renameOp (stateDir ++ "/" ++ filename ++ ".tmp") (stateDir ++ "/" ++ filename) ]

/-- Directory component of a path: everything before the last slash. -/
def dirOf (path : String) : String :=
  String.mk ((((path.data.reverse).dropWhile (fun c => c ≠ '/')).drop 1).reverse)

/-- Translation of `readState` (`src/unnamed/part_003` lines 16-23): read the
file (`none` models a `readFile` rejection, e.g. a missing file) and
`JSON.parse` it (the `parse` oracle, `none` modeling a parse throw); the
`catch` converts both failures into `null`. -/
def readState (fs : Fs) (parse : String → Option α) (stateDir filename : String) :
    Option α :=
  match fs (stateDir ++ "/" ++ filename) with
  | none => none
  | some content => parse content

/-- Dropping while a predicate holds skips a block that satisfies it
everywhere. -/
theorem dropWhile_append_of_all (p : Char → Bool) (l₁ l₂ : List Char)
    (h : ∀ a ∈ l₁, p a = true) :
    (l₁ ++ l₂).dropWhile p = l₂.dropWhile p := by
  induction l₁ with
  | nil => rfl
  | cons a l ih =>
    have ha := h a (by simp)
    simp only [List.cons_append, List.dropWhile_cons, ha, if_true]
    exact ih (fun b hb => h b (by simp [hb]))

/-- Appending a slash-free component under a directory lands in that
directory. -/
theorem dirOf_append (dir suffix : String) (h : '/' ∉ suffix.data) :
    dirOf (dir ++ "/" ++ suffix) = dir := by
  unfold dirOf
  have hdata : (dir ++ "/" ++ suffix).data = dir.data ++ ['/'] ++ suffix.data := by
    simp [String.data_append]
  rw [hdata]
  have hrev : (dir.data ++ ['/'] ++ suffix.data).reverse =
      suffix.data.reverse ++ ('/' :: dir.data.reverse) := by
    simp
  rw [hrev]
  rw [dropWhile_append_of_all _ _ _ (by
    intro a ha
    have : a ∈ suffix.data := List.mem_reverse.mp ha
    have hne : a ≠ '/' := by intro heq; exact h (heq ▸ this)
    simpa using hne)]
  have : List.dropWhile (fun c => decide (c ≠ '/')) ('/' :: dir.data.reverse) =
      '/' :: dir.data.reverse := by
    simp [List.dropWhile_cons]
  rw [this]
  simp [String.mk]

end StateCache


namespace StateCache

/-- Path a filesystem operation writes to (its destination), if any. -/
def FsOp.writesTo : FsOp → Option String
  | .mkdirRec _ => none
  | .writeFileOp p _ => some p
  | .renameOp _ dst => some dst

/-- The temp path is a different file from the target path. -/
theorem tmpPath_ne_filePath (stateDir filename : String) :
    stateDir ++ "/" ++ filename ++ ".tmp" ≠ stateDir ++ "/" ++ filename := by
  intro h
  have hlen := congrArg (fun s => s.data.length) h
  simp only [String.data_append, List.length_append] at hlen
  have h4 : (".tmp" : String).data.length = 4 := rfl
  rw [h4] at hlen
  omega

/-- A point update reads back its value at the updated path. -/
theorem upd_same (fs : Fs) (p : String) (v : Option String) : upd fs p v p = v := by
  unfold upd
  exact if_pos rfl

/-- A point update leaves other paths unchanged. -/
theorem upd_other (fs : Fs) (p q : String) (v : Option String) (h : q ≠ p) :
    upd fs p v q = fs q := by
  unfold upd
  exact if_neg h

/-- The observable states of a `writeState` run, written out: the initial
state (twice: before and after the mkdir), each mid-write state of the temp
file, the state after the full temp write, and the state after the rename. -/
theorem execStates_writeStatePlan (stateDir filename serialized : String)
    (fs₀ : Fs) :
    execStates fs₀ (writeStatePlan stateDir filename serialized) =
      fs₀ :: fs₀ ::
        (((List.range (serialized.length + 1)).map
          (fun k => upd fs₀ (stateDir ++ "/" ++ filename ++ ".tmp")
            (some (String.mk (serialized.data.take k))))) ++
        [upd fs₀ (stateDir ++ "/" ++ filename ++ ".tmp") (some serialized),
         upd (upd (upd fs₀ (stateDir ++ "/" ++ filename ++ ".tmp") (some serialized))
             (stateDir ++ "/" ++ filename ++ ".tmp") none)
           (stateDir ++ "/" ++ filename) (some serialized)]) := by
  simp only [writeStatePlan, execStates, midStates, applyOp, List.nil_append]
  rw [upd_same]

end StateCache

/-- C6: `writeState` stages the full serialized document at a temporary path
in the same directory as the target, and the only operation whose destination
is the final name is the single trailing rename; consequently every
filesystem state observable concurrently with the write — including states in
the middle of the non-atomic temp-file write — shows the target path either
with its entire previous content or with the entire new document, and the
final state shows the new document. -/
theorem writeState_atomic_replace :
    ∀ (stateDir filename serialized : String) (fs₀ : StateCache.Fs),
      '/' ∉ filename.data →
      (StateCache.dirOf (stateDir ++ "/" ++ filename ++ ".tmp") = stateDir ∧
        StateCache.dirOf (stateDir ++ "/" ++ filename) = stateDir) ∧
      ((StateCache.writeStatePlan stateDir filename serialized).countP
          (fun op => decide (op.writesTo = some (stateDir ++ "/" ++ filename))) = 1 ∧
        (StateCache.writeStatePlan stateDir filename serialized).getLast? =
          some (.renameOp (stateDir ++ "/" ++ filename ++ ".tmp")
            (stateDir ++ "/" ++ filename))) ∧
      (∀ fs ∈ StateCache.execStates fs₀
          (StateCache.writeStatePlan stateDir filename serialized),
        fs (stateDir ++ "/" ++ filename) = fs₀ (stateDir ++ "/" ++ filename) ∨
        fs (stateDir ++ "/" ++ filename) = some serialized) ∧
      StateCache.execFinal fs₀ (StateCache.writeStatePlan stateDir filename serialized)
        (stateDir ++ "/" ++ filename) = some serialized := by
  intro stateDir filename serialized fs₀ hslash
  have hne := StateCache.tmpPath_ne_filePath stateDir filename
  have hne' : stateDir ++ "/" ++ filename ≠ stateDir ++ "/" ++ filename ++ ".tmp" :=
    fun h => hne h.symm
  refine ⟨⟨?_, ?_⟩, ⟨?_, ?_⟩, ?_, ?_⟩
  · have hassoc : stateDir ++ "/" ++ filename ++ ".tmp" =
        stateDir ++ "/" ++ (filename ++ ".tmp") := by
      simp [String.append_assoc]
    rw [hassoc]
    apply StateCache.dirOf_append
    intro hmem
    rw [String.data_append] at hmem
    rcases List.mem_append.mp hmem with h | h
    · exact hslash h
    · simp at h
  · exact StateCache.dirOf_append stateDir filename hslash
  · simp only [StateCache.writeStatePlan, List.countP_cons, List.countP_nil,
      StateCache.FsOp.writesTo]
    simp [hne]
  · rfl
  · intro fs hmem
    rw [StateCache.execStates_writeStatePlan] at hmem
    simp only [List.mem_cons, List.mem_append, List.mem_map, List.mem_range,
      List.not_mem_nil, or_false] at hmem
    rcases hmem with h | h | ⟨k, _, h⟩ | h | h
    · left; rw [h]
    · left; rw [h]
    · left; rw [← h, StateCache.upd_other _ _ _ _ hne']
    · left; rw [h, StateCache.upd_other _ _ _ _ hne']
    · right; rw [h, StateCache.upd_same]
  · unfold StateCache.execFinal StateCache.writeStatePlan
    simp only [List.foldl_cons, List.foldl_nil]
    have e1 : StateCache.applyOp fs₀ (.mkdirRec stateDir) = fs₀ := rfl
    have e2 : StateCache.applyOp fs₀
        (.writeFileOp (stateDir ++ "/" ++ filename ++ ".tmp") serialized) =
        StateCache.upd fs₀ (stateDir ++ "/" ++ filename ++ ".tmp")
          (some serialized) := rfl
    rw [e1, e2]
    simp only [StateCache.applyOp]
    rw [StateCache.upd_same]
    dsimp only
    rw [StateCache.upd_same]

/-- C6 witness: concrete write of `"x"` to `market-regime.json` under `state`
on an empty filesystem — the final state holds the full document. -/
theorem writeState_atomic_replace_witness :
    ('/' ∉ "market-regime.json".data) ∧
    StateCache.execFinal (fun _ => none)
      (StateCache.writeStatePlan "state" "market-regime.json" "x")
      ("state" ++ "/" ++ "market-regime.json") = some "x" := by
  refine ⟨by decide, ?_⟩
  exact (writeState_atomic_replace "state" "market-regime.json" "x"
    (fun _ => none) (by decide)).2.2.2

/-- C8: `readState` never raises — for every filesystem and parse oracle it
returns the parsed document when the file exists and parses, and returns
`null` both when the file is missing (the `readFile` rejection) and when its
content is malformed (the `JSON.parse` throw), the `catch` converting either
failure into `null`. -/
theorem readState_never_raises :
    ∀ (α : Type) (fs : StateCache.Fs) (parse : String → Option α)
      (dir f : String),
      (fs (dir ++ "/" ++ f) = none →
        StateCache.readState fs parse dir f = none) ∧
      (∀ c, fs (dir ++ "/" ++ f) = some c → parse c = none →
        StateCache.readState fs parse dir f = none) ∧
      (∀ c d, fs (dir ++ "/" ++ f) = some c → parse c = some d →
        StateCache.readState fs parse dir f = some d) := by
  intro α fs parse dir f
  refine ⟨?_, ?_, ?_⟩
  · intro h
    unfold StateCache.readState
    rw [h]
  · intro c hc hp
    unfold StateCache.readState
    rw [hc]
    exact hp
  · intro c d hc hp
    unfold StateCache.readState
    rw [hc]
    exact hp

/-- C8 witness: a missing file, a malformed file and a well-formed file, read
through a concrete parse oracle. -/
theorem readState_never_raises_witness :
    StateCache.readState (fun _ => none) (fun s => if s = "1" then some 1 else none)
      "state" "missing.json" = none ∧
    StateCache.readState (fun p => if p = "state" ++ "/" ++ "bad.json" then some "oops" else none)
      (fun s => if s = "1" then some 1 else none) "state" "bad.json" = none ∧
    StateCache.readState (fun p => if p = "state" ++ "/" ++ "good.json" then some "1" else none)
      (fun s => if s = "1" then some 1 else none) "state" "good.json" = some 1 := by
  refine ⟨?_, ?_, ?_⟩
  · exact (readState_never_raises Nat (fun _ => none) _ "state" "missing.json").1 rfl
  · exact (readState_never_raises Nat _ _ "state" "bad.json").2.1 "oops" (by decide) (by decide)
  · exact (readState_never_raises Nat _ _ "state" "good.json").2.2 "1" 1 (by decide) (by decide)

namespace Research

/-- Atomic actions of `handleResearch` (`src/src/relay.ts` lines 708-794) on
the shared `activeResearchCount` counter, between suspension points: `susp`
is an awaited operation that does not touch the counter (a Discord reply, a
conversation log, the remote run, a notification send), `decr` is
`activeResearchCount--`. -/
inductive RAct
  | susp
  | decr
deriving DecidableEq, Repr

/-- Branch taken by one `handleResearch` invocation after it has claimed the
slot, enumerating the exit paths of `src/src/relay.ts` lines 730-793. -/
inductive ResearchOutcome
  | rateLimited
  | rateLimitedReplyThrows
  | replyThrows
  | remoteCompleted
  | remoteThrows
deriving DecidableEq, Repr

/-- The action sequence `handleResearch` executes after the atomic
check-and-increment (`src/src/relay.ts` lines 719-728), by exit path:
  * `rateLimited` — `checkRateLimit()` false (line 731, synchronous): await
    the rejection reply, then `activeResearchCount--` (line 736), return;
  * `rateLimitedReplyThrows` — the rejection reply throws: the `catch`
    (line 790) decrements and rethrows, the outer interaction handler
    replies (`relay.ts` lines 398-409, no counter access);
  * `replyThrows` — rate limit passed, `logConversation` awaited (never
    throws, its own try/catch), `interaction.reply` (line 755) throws: the
    `catch` decrements and rethrows, the outer handler replies;
  * `remoteCompleted` — reply sent, detached task launched (line 764):
    `runClaudeRemote` awaited, `sendDiscordChunked` awaited (either result
    branch), `finally` decrements (line 787);
  * `remoteThrows` — the detached task's body throws: its `catch` sends the
    error notification, `finally` decrements. -/
def researchCont : ResearchOutcome → List RAct
  | .rateLimited => [.susp, .decr]
  | .rateLimitedReplyThrows => [.susp, .decr, .susp]
  | .replyThrows => [.susp, .susp, .decr, .susp]
  | .remoteCompleted => [.susp, .susp, .susp, .susp, .decr]
  | .remoteThrows => [.susp, .susp, .susp, .susp, .decr]

/-- State of one `handleResearch` task: `ready cont` is about to execute the
atomic availability-check-and-increment (lines 719-728, no suspension point
between check and increment) and on acquisition continues with `cont`;
`exec rem` is executing its remaining atomic actions; `done` has returned
(or was rejected). -/
inductive TState
  | ready (cont : List RAct)
  | exec (rem : List RAct)
  | done
deriving DecidableEq, Repr

/-- Number of decrements in an action list. -/
def decrCount (l : List RAct) : Nat :=
  l.countP (fun a => a = RAct.decr)

@[simp]
theorem decrCount_nil : decrCount [] = 0 := rfl

@[simp]
theorem decrCount_susp (rem : List RAct) :
    decrCount (.susp :: rem) = decrCount rem := by
  simp [decrCount, List.countP_cons]

@[simp]
theorem decrCount_decr (rem : List RAct) :
    decrCount (.decr :: rem) = decrCount rem + 1 := by
  simp [decrCount, List.countP_cons]

/-- Pending releases a task still owes the counter. -/
def TState.pend : TState → Nat
  | .ready _ => 0
  | .exec rem => decrCount rem
  | .done => 0

/-- Two concurrent `handleResearch` invocations sharing the module-level
`activeResearchCount` (`src/src/relay.ts` line 250).  The counter is a JS
number, embedded as an integer so that an unbalanced decrement would be
visible as a negative value. -/
structure Sys where
  count : Int
  t1 : TState
  t2 : TState
deriving DecidableEq, Repr

/-- One atomic step of a single task against the shared counter.  The
availability check `activeResearchCount >= 1` and the increment
`activeResearchCount++` form one step (`guard_reject`/`guard_acquire`):
the source has no `await` between them.  Every other step is separated from
its neighbours by an `await` of the single-threaded event loop. -/
inductive ThreadStep : Int × TState → Int × TState → Prop
  | guard_reject (count : Int) (c : List RAct) (h : 1 ≤ count) :
      ThreadStep (count, .ready c) (count, .done)
  | guard_acquire (count : Int) (c : List RAct) (h : count < 1) :
      ThreadStep (count, .ready c) (count + 1, .exec c)
  | susp_step (count : Int) (rem : List RAct) :
      ThreadStep (count, .exec (.susp :: rem)) (count, .exec rem)
  | decr_step (count : Int) (rem : List RAct) :
      ThreadStep (count, .exec (.decr :: rem)) (count - 1, .exec rem)
  | finish (count : Int) :
      ThreadStep (count, .exec []) (count, .done)

/-- Interleaving semantics: either task takes its next atomic step. -/
inductive Step : Sys → Sys → Prop
  | left {c c' : Int} {t t' u : TState} :
      ThreadStep (c, t) (c', t') → Step ⟨c, t, u⟩ ⟨c', t', u⟩
  | right {c c' : Int} {t u u' : TState} :
      ThreadStep (c, u) (c', u') → Step ⟨c, t, u⟩ ⟨c', t, u'⟩

/-- How one `handleResearch` call enters the system: a validation failure
(description too long, lines 713-717) replies and returns without ever
touching the counter; any other call reaches the guarded region. -/
inductive ResearchCall
  | invalidDesc
  | guarded (o : ResearchOutcome)

/-- Initial task state of a call. -/
def initThread : ResearchCall → TState
  | .invalidDesc => .exec [.susp]
  | .guarded o => .ready (researchCont o)

/-- Initial system: counter zero, both calls pending. -/
def initSys (c₁ c₂ : ResearchCall) : Sys :=
  ⟨0, initThread c₁, initThread c₂⟩

/-- States reachable by interleaving the two calls. -/
def Reachable (c₁ c₂ : ResearchCall) (s : Sys) : Prop :=
  Relation.ReflTransGen Step (initSys c₁ c₂) s

/-- Well-formedness of a task: a task about to run the guard owes exactly one
decrement once admitted; a running task owes at most one. -/
def TState.wf : TState → Prop
  | .ready c => decrCount c = 1
  | .exec rem => decrCount rem ≤ 1
  | .done => True

/-- System invariant: the counter equals the summed pending releases, every
task is well-formed, and the counter stays within `[0, 1]`. -/
def Inv (s : Sys) : Prop :=
  s.count = (s.t1.pend : Int) + (s.t2.pend : Int) ∧
    s.t1.wf ∧ s.t2.wf ∧ 0 ≤ s.count ∧ s.count ≤ 1

/-- Every guarded path releases the slot exactly once. -/
theorem decrCount_researchCont (o : ResearchOutcome) :
    decrCount (researchCont o) = 1 := by
  cases o <;> rfl

/-- The invariant holds initially. -/
theorem inv_init (c₁ c₂ : ResearchCall) : Inv (initSys c₁ c₂) := by
  have h : ∀ c : ResearchCall, (initThread c).pend = 0 ∧ (initThread c).wf := by
    intro c
    cases c with
    | invalidDesc => exact ⟨rfl, by simp [initThread, TState.wf]⟩
    | guarded o =>
      exact ⟨rfl, by simp [TState.wf, initThread, decrCount_researchCont]⟩
  obtain ⟨hp1, hw1⟩ := h c₁
  obtain ⟨hp2, hw2⟩ := h c₂
  refine ⟨?_, hw1, hw2, by simp [initSys], by simp [initSys]⟩
  simp [initSys, hp1, hp2]

/-- One thread-step preserves the pend/wf bookkeeping of the stepping thread
and the counter relation with any fixed other-side contribution. -/
theorem threadStep_inv {count count' : Int} {t t' : TState} (other : Nat)
    (h : ThreadStep (count, t) (count', t'))
    (hc : count = (t.pend : Int) + (other : Int)) (hw : t.wf)
    (hother : other ≤ 1)
    (h0 : 0 ≤ count) (h1 : count ≤ 1) :
    count' = (t'.pend : Int) + (other : Int) ∧ t'.wf ∧
      0 ≤ count' ∧ count' ≤ 1 := by
  cases h with
  | guard_reject count c hge =>
    exact ⟨hc, trivial, h0, h1⟩
  | guard_acquire count c hlt =>
    have hcnt : count = 0 := by omega
    have : (TState.ready c).pend = 0 := rfl
    rw [this] at hc
    have hoth : (other : Int) = 0 := by omega
    refine ⟨?_, ?_, by omega, by omega⟩
    · simp only [TState.pend, TState.wf] at *
      rw [hw]
      omega
    · simp only [TState.wf] at hw ⊢
      omega
  | susp_step count rem =>
    simp only [TState.pend, TState.wf, decrCount_susp] at hc hw ⊢
    exact ⟨hc, hw, h0, h1⟩
  | decr_step count rem =>
    simp only [TState.pend, TState.wf, decrCount_decr] at hc hw ⊢
    refine ⟨by omega, by omega, by omega, by omega⟩
  | finish count =>
    simp only [TState.pend, TState.wf, decrCount_nil] at hc hw ⊢
    exact ⟨hc, trivial, h0, h1⟩

/-- Pending releases never exceed one per task. -/
theorem pend_le_one {t : TState} (hw : t.wf) : t.pend ≤ 1 := by
  cases t with
  | ready c => simp [TState.pend]
  | exec rem => simpa [TState.pend, TState.wf] using hw
  | done => simp [TState.pend]

/-- The invariant is preserved by every interleaved step. -/
theorem inv_step {s s' : Sys} (h : Step s s') (hi : Inv s) : Inv s' := by
  cases h with
  | @left c c' t t' u hts =>
    simp only [Inv] at hi ⊢
    obtain ⟨hc, hw1, hw2, h0, h1⟩ := hi
    obtain ⟨H1, H2, H3, H4⟩ := threadStep_inv u.pend hts hc hw1
      (pend_le_one hw2) h0 h1
    exact ⟨H1, H2, hw2, H3, H4⟩
  | @right c c' t u u' hts =>
    simp only [Inv] at hi ⊢
    obtain ⟨hc, hw1, hw2, h0, h1⟩ := hi
    obtain ⟨H1, H2, H3, H4⟩ := threadStep_inv t.pend hts (by omega) hw2
      (pend_le_one hw1) h0 h1
    exact ⟨by omega, hw1, H2, H3, H4⟩

/-- The invariant holds in every reachable state. -/
theorem inv_reachable {c₁ c₂ : ResearchCall} {s : Sys}
    (h : Reachable c₁ c₂ s) : Inv s := by
  induction h with
  | refl => exact inv_init c₁ c₂
  | tail _ hstep ih => exact inv_step hstep ih

end Research

/-- C3: with the `/research` concurrency ceiling of 1, the availability check
and the increment of `activeResearchCount` form one atomic step (no
suspension point between them, by the step semantics of `guard_acquire`);
every guarded exit path — rate-limit rejection, a throw in the handler, and
success, failure or throw of the detached remote run — performs exactly one
decrement; consequently `0 ≤ activeResearchCount ≤ 1` holds in every state
reachable by interleaving two `/research` invocations, and while one is in
flight (`count = 1`) the second's guard can only reject it, leaving the
counter untouched. -/
theorem handleResearch_concurrency_guard :
    (∀ (c₁ c₂ : Research.ResearchCall) (s : Research.Sys),
      Research.Reachable c₁ c₂ s → 0 ≤ s.count ∧ s.count ≤ 1) ∧
    (∀ o : Research.ResearchOutcome,
      Research.decrCount (Research.researchCont o) = 1) ∧
    (∀ (count : Int) (c : List Research.RAct) (p : Int × Research.TState),
      1 ≤ count → Research.ThreadStep (count, .ready c) p →
        p = (count, Research.TState.done)) := by
  refine ⟨?_, Research.decrCount_researchCont, ?_⟩
  · intro c₁ c₂ s h
    have := Research.inv_reachable h
    exact ⟨this.2.2.2.1, this.2.2.2.2⟩
  · intro count c p hge hstep
    cases hstep with
    | guard_reject _ _ _ => rfl
    | guard_acquire _ _ hlt => omega

/-- C3 witness: the initial interleaving state of two guarded `/research`
calls satisfies the bound, and with the counter at 1 a concrete guard step of
the second call is a rejection. -/
theorem handleResearch_concurrency_guard_witness :
    (0 ≤ (Research.initSys (.guarded .remoteCompleted)
        (.guarded .rateLimited)).count ∧
      (Research.initSys (.guarded .remoteCompleted)
        (.guarded .rateLimited)).count ≤ 1) ∧
    ((1 : Int), Research.TState.done) =
      ((1 : Int), Research.TState.done) := by
  refine ⟨?_, ?_⟩
  · exact handleResearch_concurrency_guard.1 _ _ _ Relation.ReflTransGen.refl
  · exact handleResearch_concurrency_guard.2.2 1
      (Research.researchCont .remoteCompleted) (1, Research.TState.done)
      (by omega)
      (Research.ThreadStep.guard_reject 1 _ (by omega))

namespace Chunker

/-- JS strings are embedded as lists of characters. -/
abbrev Str := List Char

/-- The Discord chunk limit, from `src/src/relay.ts` line 256:
`MAX_LENGTH = 1900`. -/
def MAX_LENGTH : Nat := 1900

/-- The character class removed by JS `String.prototype.trim`: ECMAScript
WhiteSpace and LineTerminator code points. -/
def isWs (c : Char) : Bool :=
  c == ' ' || c == '\t' || c == '\n' || c == '\r' ||
  c == '\x0b' || c == '\x0c' || c == ' ' || c == ' ' ||
  (decide (0x2000 ≤ c.toNat) && decide (c.toNat ≤ 0x200A)) ||
  c == ' ' || c == ' ' || c == ' ' || c == ' ' ||
  c == '　' || c == '﻿'

/-- JS `s.trim()`: remove leading and trailing whitespace. -/
def trimStr (s : Str) : Str :=
  ((s.dropWhile isWs).reverse.dropWhile isWs).reverse

/-- The pattern occurs in `s` starting at index `i`. -/
def occursAt (pat s : Str) (i : Nat) : Prop :=
  pat <+: s.drop i

instance (pat s : Str) (i : Nat) : Decidable (occursAt pat s i) :=
  inferInstanceAs (Decidable (pat <+: s.drop i))

/-- Accumulator pass behind `lastIndexOfLe`: walk the string once, remembering
the latest index `≤ pos` at which the pattern starts.  Later matches overwrite
earlier ones, so the final value is the largest admissible start index. -/
def lastIndexOfAux (pat : Str) (pos : Nat) : Str → Nat → Option Nat → Option Nat
  | [], i, best => if i ≤ pos ∧ pat.isPrefixOf [] then some i else best
  | c :: rest, i, best =>
    lastIndexOfAux pat pos rest (i + 1)
      (if i ≤ pos ∧ pat.isPrefixOf (c :: rest) then some i else best)

/-- JS `s.lastIndexOf(pat, pos)` for nonempty `pat`: the largest index
`≤ pos` at which `pat` starts in `s` (`none` for JS's `-1`).  The match may
extend past `pos`; only its start is constrained, as in ECMAScript. -/
def lastIndexOfLe (pat s : Str) (pos : Nat) : Option Nat :=
  lastIndexOfAux pat pos s 0 none

/-- Boundary selection of `splitMessage` (`src/src/relay.ts` lines 298-303):
the latest paragraph break (`"\n\n"`) starting at or before `MAX_LENGTH`,
else the latest line break, else the latest space, else a hard cut at
`MAX_LENGTH`. -/
def chooseSplit (rem : Str) : Nat :=
  match lastIndexOfLe ['\n', '\n'] rem MAX_LENGTH with
  | some i => i
  | none =>
    match lastIndexOfLe ['\n'] rem MAX_LENGTH with
    | some i => i
    | none =>
      match lastIndexOfLe [' '] rem MAX_LENGTH with
      | some i => i
      | none => MAX_LENGTH

/-- The `while` loop of `splitMessage` (`src/src/relay.ts` lines 288-310),
with explicit fuel: while the remainder is nonempty, emit it whole if it fits,
otherwise cut at `chooseSplit`, emit the head, and continue with the trimmed
tail (`remaining.substring(splitIndex).trim()`).  Each iteration strictly
shortens the remainder (`splitGo_length_lt`), so the fuel `length + 1` used
by `splitMessage` never runs out. -/
def splitGo (fuel : Nat) (rem : Str) : List Str :=
  match fuel with
  | 0 => []
  | fuel + 1 =>
    if rem = [] then []
    else if rem.length ≤ MAX_LENGTH then [rem]
    else rem.take (chooseSplit rem) :: splitGo fuel (trimStr (rem.drop (chooseSplit rem)))

/-- Translation of `splitMessage` (`src/src/relay.ts` lines 288-310). -/
def splitMessage (text : Str) : List Str :=
  splitGo (text.length + 1) text

/-- Interleave chunks with the whitespace runs that followed each of them:
`interleave [c₁, …, cₙ] [w₁, …, wₙ] = c₁ ++ w₁ ++ … ++ cₙ ++ wₙ`. -/
def interleave : List Str → List Str → Str
  | [], _ => []
  | c :: cs, [] => c ++ interleave cs []
  | c :: cs, w :: ws => c ++ w ++ interleave cs ws

/-- Append a run to the last element of a nonempty list (used to absorb a
trailing whitespace run into the final inter-chunk gap). -/
def extendLast : List Str → Str → List Str
  | [], t => [t]
  | [w], t => [w ++ t]
  | w :: ws, t => w :: extendLast ws t

/-- Soundness and maximality of the single-pass scan. -/
theorem lastIndexOfAux_spec (pat : Str) (hpat : pat ≠ []) (pos : Nat) :
    ∀ (suffix pre : Str) (best : Option Nat),
      (∀ b, best = some b →
        b < pre.length ∧ b ≤ pos ∧ pat <+: (pre ++ suffix).drop b) →
      (∀ j, j < pre.length → j ≤ pos → pat <+: (pre ++ suffix).drop j →
        ∃ b, best = some b ∧ j ≤ b) →
      (∀ b, lastIndexOfAux pat pos suffix pre.length best = some b →
        b ≤ pos ∧ pat <+: (pre ++ suffix).drop b) ∧
      (∀ j, j ≤ pos → pat <+: (pre ++ suffix).drop j →
        ∃ b, lastIndexOfAux pat pos suffix pre.length best = some b ∧ j ≤ b) := by
  intro suffix
  induction suffix with
  | nil =>
    intro pre best hbest1 hbest2
    have hpref : pat.isPrefixOf ([] : Str) = false := by
      cases pat with
      | nil => exact absurd rfl hpat
      | cons a l => rfl
    have hstep : lastIndexOfAux pat pos [] pre.length best = best := by
      simp [lastIndexOfAux, hpref]
    rw [hstep]
    constructor
    · intro b hb
      exact ⟨(hbest1 b hb).2.1, (hbest1 b hb).2.2⟩
    · intro j hj hocc
      by_cases hlt : j < pre.length
      · exact hbest2 j hlt hj hocc
      · exfalso
        rw [List.append_nil] at hocc
        have hdrop : pre.drop j = [] :=
          List.drop_eq_nil_of_le (by omega)
        rw [hdrop] at hocc
        exact hpat (List.prefix_nil.mp hocc)
  | cons c rest ih =>
    intro pre best hbest1 hbest2
    have hstep : lastIndexOfAux pat pos (c :: rest) pre.length best =
        lastIndexOfAux pat pos rest (pre.length + 1)
          (if pre.length ≤ pos ∧ pat.isPrefixOf (c :: rest) then some pre.length
            else best) := rfl
    have hlist : (pre ++ [c]) ++ rest = pre ++ (c :: rest) := by
      simp
    have hlen : (pre ++ [c]).length = pre.length + 1 := by
      simp
    have h1' : ∀ b,
        (if pre.length ≤ pos ∧ pat.isPrefixOf (c :: rest) then some pre.length
          else best) = some b →
        b < (pre ++ [c]).length ∧ b ≤ pos ∧
          pat <+: ((pre ++ [c]) ++ rest).drop b := by
      intro b hb
      rw [hlist, hlen]
      split at hb
      · rename_i hcond
        obtain ⟨hle, hpref⟩ := hcond
        cases hb
        refine ⟨by omega, hle, ?_⟩
        rw [List.drop_left]
        exact List.isPrefixOf_iff_prefix.mp hpref
      · obtain ⟨hb1, hb2, hb3⟩ := hbest1 b hb
        exact ⟨by omega, hb2, hb3⟩
    have h2' : ∀ j, j < (pre ++ [c]).length → j ≤ pos →
        pat <+: ((pre ++ [c]) ++ rest).drop j →
        ∃ b, (if pre.length ≤ pos ∧ pat.isPrefixOf (c :: rest) then some pre.length
          else best) = some b ∧ j ≤ b := by
      intro j hjlt hj hocc
      rw [hlist] at hocc
      rw [hlen] at hjlt
      by_cases hlt : j < pre.length
      · obtain ⟨b, hb, hjb⟩ := hbest2 j hlt hj hocc
        split
        · exact ⟨pre.length, rfl, by omega⟩
        · exact ⟨b, hb, hjb⟩
      · have hj_eq : j = pre.length := by omega
        rw [hj_eq] at hocc hj
        rw [List.drop_left] at hocc
        rw [if_pos ⟨hj, List.isPrefixOf_iff_prefix.mpr hocc⟩]
        exact ⟨pre.length, rfl, by omega⟩
    have := ih (pre ++ [c]) _ h1' h2'
    rw [hlen] at this
    rw [hlist] at this
    rw [hstep]
    exact this

/-- Specification of `lastIndexOfLe` for a nonempty pattern: a returned index
is an occurrence at or before `pos` and is the latest such; `none` means no
occurrence starts at or before `pos`. -/
theorem lastIndexOfLe_spec (pat s : Str) (pos : Nat) (hpat : pat ≠ []) :
    (∀ k, lastIndexOfLe pat s pos = some k →
      k ≤ pos ∧ occursAt pat s k ∧
        ∀ j, j ≤ pos → occursAt pat s j → j ≤ k) ∧
    (lastIndexOfLe pat s pos = none →
      ∀ j, j ≤ pos → ¬occursAt pat s j) := by
  have hmain := lastIndexOfAux_spec pat hpat pos s [] none
    (by intro b hb; cases hb)
    (by intro j hj; exfalso; revert hj; simp)
  simp only [List.nil_append, List.length_nil] at hmain
  obtain ⟨hsound, hmax⟩ := hmain
  constructor
  · intro k hk
    refine ⟨(hsound k hk).1, (hsound k hk).2, ?_⟩
    intro j hj hocc
    obtain ⟨b, hb, hjb⟩ := hmax j hj hocc
    have hk' : lastIndexOfAux pat pos s 0 none = some k := hk
    rw [hk'] at hb
    cases hb
    exact hjb
  · intro hnone j hj hocc
    obtain ⟨b, hb, _⟩ := hmax j hj hocc
    have hnone' : lastIndexOfAux pat pos s 0 none = none := hnone
    rw [hnone'] at hb
    cases hb

end Chunker

namespace Chunker

/-- Trimming never lengthens a string. -/
theorem trimStr_length_le (s : Str) : (trimStr s).length ≤ s.length := by
  unfold trimStr
  rw [List.length_reverse]
  calc ((s.dropWhile isWs).reverse.dropWhile isWs).length
      ≤ (s.dropWhile isWs).reverse.length := (List.dropWhile_sublist isWs).length_le
    _ = (s.dropWhile isWs).length := List.length_reverse _
    _ ≤ s.length := (List.dropWhile_sublist isWs).length_le

/-- Trimming a string with a whitespace head is as short as trimming its
tail. -/
theorem trimStr_cons_ws_length (c : Char) (tl : Str) (hc : isWs c = true) :
    (trimStr (c :: tl)).length ≤ tl.length := by
  unfold trimStr
  rw [List.dropWhile_cons, hc]
  simp only [if_true]
  rw [List.length_reverse]
  calc ((tl.dropWhile isWs).reverse.dropWhile isWs).length
      ≤ (tl.dropWhile isWs).reverse.length := (List.dropWhile_sublist isWs).length_le
    _ = (tl.dropWhile isWs).length := List.length_reverse _
    _ ≤ tl.length := (List.dropWhile_sublist isWs).length_le

/-- The chosen split index never exceeds `MAX_LENGTH`. -/
theorem chooseSplit_le (rem : Str) : chooseSplit rem ≤ MAX_LENGTH := by
  unfold chooseSplit
  cases h1 : lastIndexOfLe ['\n', '\n'] rem MAX_LENGTH with
  | some i => exact ((lastIndexOfLe_spec _ rem MAX_LENGTH (by simp)).1 i h1).1
  | none =>
    cases h2 : lastIndexOfLe ['\n'] rem MAX_LENGTH with
    | some i => exact ((lastIndexOfLe_spec _ rem MAX_LENGTH (by simp)).1 i h2).1
    | none =>
      cases h3 : lastIndexOfLe [' '] rem MAX_LENGTH with
      | some i => exact ((lastIndexOfLe_spec _ rem MAX_LENGTH (by simp)).1 i h3).1
      | none => exact le_refl _

/-- A zero split index means the remainder starts with a whitespace character
(the head of the matched `"\n\n"`, `"\n"` or `" "`). -/
theorem chooseSplit_zero_ws_head (rem : Str) (h : chooseSplit rem = 0) :
    ∃ c tl, rem = c :: tl ∧ isWs c = true := by
  have hocc : (∃ tl, rem = '\n' :: tl) ∨ (∃ tl, rem = ' ' :: tl) := by
    unfold chooseSplit at h
    cases h1 : lastIndexOfLe ['\n', '\n'] rem MAX_LENGTH with
    | some i =>
      rw [h1] at h
      subst h
      have := ((lastIndexOfLe_spec _ rem MAX_LENGTH (by simp)).1 0 h1).2.1
      unfold occursAt at this
      rw [List.drop_zero] at this
      obtain ⟨t, ht⟩ := this
      exact Or.inl ⟨'\n' :: t, by rw [← ht]; rfl⟩
    | none =>
      rw [h1] at h
      cases h2 : lastIndexOfLe ['\n'] rem MAX_LENGTH with
      | some i =>
        rw [h2] at h
        subst h
        have := ((lastIndexOfLe_spec _ rem MAX_LENGTH (by simp)).1 0 h2).2.1
        unfold occursAt at this
        rw [List.drop_zero] at this
        obtain ⟨t, ht⟩ := this
        exact Or.inl ⟨t, by rw [← ht]; rfl⟩
      | none =>
        rw [h2] at h
        cases h3 : lastIndexOfLe [' '] rem MAX_LENGTH with
        | some i =>
          rw [h3] at h
          subst h
          have := ((lastIndexOfLe_spec _ rem MAX_LENGTH (by simp)).1 0 h3).2.1
          unfold occursAt at this
          rw [List.drop_zero] at this
          obtain ⟨t, ht⟩ := this
          exact Or.inr ⟨t, by rw [← ht]; rfl⟩
        | none =>
          rw [h3] at h
          exact absurd h (by decide)
  rcases hocc with ⟨tl, htl⟩ | ⟨tl, htl⟩
  · exact ⟨'\n', tl, htl, by rfl⟩
  · exact ⟨' ', tl, htl, by rfl⟩

/-- Each `splitMessage` iteration strictly shortens the remainder. -/
theorem splitStep_shrinks (rem : Str) (h : MAX_LENGTH < rem.length) :
    (trimStr (rem.drop (chooseSplit rem))).length < rem.length := by
  by_cases h0 : chooseSplit rem = 0
  · obtain ⟨c, tl, hrem, hc⟩ := chooseSplit_zero_ws_head rem h0
    rw [h0, List.drop_zero, hrem]
    have := trimStr_cons_ws_length c tl hc
    simp only [List.length_cons]
    omega
  · have hle : chooseSplit rem ≤ MAX_LENGTH := chooseSplit_le rem
    calc (trimStr (rem.drop (chooseSplit rem))).length
        ≤ (rem.drop (chooseSplit rem)).length := trimStr_length_le _
      _ = rem.length - chooseSplit rem := List.length_drop _ _
      _ < rem.length := by omega

end Chunker

namespace Chunker

/-- The trim step decomposes a string into a whitespace prefix, the trimmed
core, and a whitespace suffix. -/
theorem trimStr_decomposition (s : Str) :
    ∃ lws tws : Str, (∀ c ∈ lws, isWs c = true) ∧ (∀ c ∈ tws, isWs c = true) ∧
      s = lws ++ trimStr s ++ tws := by
  refine ⟨s.takeWhile isWs, ((s.dropWhile isWs).reverse.takeWhile isWs).reverse,
    ?_, ?_, ?_⟩
  · intro c hc
    exact List.mem_takeWhile_imp hc
  · intro c hc
    exact List.mem_takeWhile_imp (List.mem_reverse.mp hc)
  · unfold trimStr
    conv_lhs => rw [← List.takeWhile_append_dropWhile isWs s]
    rw [List.append_assoc]
    congr 1
    conv_lhs => rw [← List.reverse_reverse (s.dropWhile isWs),
      ← List.takeWhile_append_dropWhile isWs (s.dropWhile isWs).reverse]
    rw [List.reverse_append]

/-- Appending to the last gap preserves the gap count. -/
theorem extendLast_length (ws : List Str) (t : Str) (h : ws ≠ []) :
    (extendLast ws t).length = ws.length := by
  induction ws with
  | nil => exact absurd rfl h
  | cons w ws ih =>
    cases ws with
    | nil => rfl
    | cons w2 ws2 =>
      have : extendLast (w :: w2 :: ws2) t = w :: extendLast (w2 :: ws2) t := rfl
      rw [this, List.length_cons, List.length_cons, ih (by simp)]

/-- Extending the last gap with whitespace keeps every gap whitespace. -/
theorem extendLast_all_ws (ws : List Str) (t : Str)
    (hws : ∀ w ∈ ws, ∀ c ∈ w, isWs c = true) (ht : ∀ c ∈ t, isWs c = true) :
    ∀ w ∈ extendLast ws t, ∀ c ∈ w, isWs c = true := by
  induction ws with
  | nil =>
    intro w hw
    simp only [extendLast, List.mem_singleton] at hw
    rw [hw]
    exact ht
  | cons w₁ ws ih =>
    cases ws with
    | nil =>
      intro w hw
      simp only [extendLast, List.mem_singleton] at hw
      rw [hw]
      intro c hc
      rcases List.mem_append.mp hc with h | h
      · exact hws w₁ (by simp) c h
      · exact ht c h
    | cons w2 ws2 =>
      intro w hw
      have hstep : extendLast (w₁ :: w2 :: ws2) t = w₁ :: extendLast (w2 :: ws2) t := rfl
      rw [hstep] at hw
      rcases List.mem_cons.mp hw with h | h
      · rw [h]
        exact hws w₁ (by simp)
      · exact ih (fun u hu => hws u (by simp [hu])) w h

/-- Pushing a run through the interleaving extends its last gap. -/
theorem interleave_extendLast (cs : List Str) :
    ∀ (ws : List Str) (t : Str), cs ≠ [] → ws.length = cs.length →
      interleave cs (extendLast ws t) = interleave cs ws ++ t := by
  induction cs with
  | nil => intro ws t h; exact absurd rfl h
  | cons c cs ih =>
    intro ws t _ hlen
    cases ws with
    | nil => simp at hlen
    | cons w ws' =>
      cases cs with
      | nil =>
        have hws' : ws' = [] := by
          simpa using hlen
        subst hws'
        show interleave [c] [w ++ t] = interleave [c] [w] ++ t
        simp [interleave]
      | cons c2 cs2 =>
        have hws' : ws' ≠ [] := by
          intro hw
          rw [hw] at hlen
          simp at hlen
        obtain ⟨x, xs, hx⟩ := List.exists_cons_of_ne_nil hws'
        subst hx
        have hstep : extendLast (w :: x :: xs) t = w :: extendLast (x :: xs) t := rfl
        rw [hstep]
        show c ++ w ++ interleave (c2 :: cs2) (extendLast (x :: xs) t) =
          (c ++ w ++ interleave (c2 :: cs2) (x :: xs)) ++ t
        rw [ih (x :: xs) t (by simp) (by simpa using hlen)]
        simp [List.append_assoc]

end Chunker

namespace Chunker

/-- Every emitted chunk fits the limit. -/
theorem splitGo_chunk_le :
    ∀ (fuel : Nat) (rem : Str), ∀ c ∈ splitGo fuel rem, c.length ≤ MAX_LENGTH := by
  intro fuel
  induction fuel with
  | zero => intro rem c hc; simp [splitGo] at hc
  | succ n ih =>
    intro rem c hc
    have hstep : splitGo (n + 1) rem =
        if rem = [] then []
        else if rem.length ≤ MAX_LENGTH then [rem]
        else rem.take (chooseSplit rem) ::
          splitGo n (trimStr (rem.drop (chooseSplit rem))) := rfl
    rw [hstep] at hc
    split at hc
    · simp at hc
    · split at hc
      · rename_i hlen
        rw [List.mem_singleton] at hc
        rw [hc]
        exact hlen
      · rcases List.mem_cons.mp hc with h | h
        · rw [h, List.length_take]
          exact le_trans (min_le_left _ _) (chooseSplit_le rem)
        · exact ih _ c h

/-- Splitting-and-trimming reconstructs the input once each chunk is followed
by its removed whitespace run (the final run collecting the input's trimmed
tail). -/
theorem splitGo_reconstruct :
    ∀ (fuel : Nat) (rem : Str), rem.length < fuel →
      ∃ ws : List Str, ws.length = (splitGo fuel rem).length ∧
        (∀ w ∈ ws, ∀ c ∈ w, isWs c = true) ∧
        rem = interleave (splitGo fuel rem) ws := by
  intro fuel
  induction fuel with
  | zero => intro rem h; omega
  | succ n ih =>
    intro rem hfuel
    have hstep : splitGo (n + 1) rem =
        if rem = [] then []
        else if rem.length ≤ MAX_LENGTH then [rem]
        else rem.take (chooseSplit rem) ::
          splitGo n (trimStr (rem.drop (chooseSplit rem))) := rfl
    by_cases hnil : rem = []
    · refine ⟨[], ?_, ?_, ?_⟩
      · rw [hstep, if_pos hnil]
      · intro w hw; simp at hw
      · rw [hstep, if_pos hnil, hnil]; rfl
    · by_cases hlen : rem.length ≤ MAX_LENGTH
      · refine ⟨[[]], ?_, ?_, ?_⟩
        · rw [hstep, if_neg hnil, if_pos hlen]
          rfl
        · intro w hw
          rw [List.mem_singleton] at hw
          rw [hw]
          intro c hc
          simp at hc
        · rw [hstep, if_neg hnil, if_pos hlen]
          show rem = rem ++ [] ++ interleave [] []
          simp [interleave]
      · have hshrink : (trimStr (rem.drop (chooseSplit rem))).length < rem.length :=
          splitStep_shrinks rem (by omega)
        have hfuel' : (trimStr (rem.drop (chooseSplit rem))).length < n := by omega
        obtain ⟨ws', hlen', hws', heq'⟩ := ih _ hfuel'
        obtain ⟨lws, tws, hlws, htws, hdecomp⟩ :=
          trimStr_decomposition (rem.drop (chooseSplit rem))
        have hrem : rem = rem.take (chooseSplit rem) ++ rem.drop (chooseSplit rem) :=
          (List.take_append_drop _ rem).symm
        rw [hstep, if_neg hnil, if_neg hlen]
        by_cases hc0 : splitGo n (trimStr (rem.drop (chooseSplit rem))) = []
        · have hrem'nil : trimStr (rem.drop (chooseSplit rem)) = [] := by
            rw [hc0] at heq'
            simpa [interleave] using heq'
          refine ⟨[lws ++ tws], by simp [hc0], ?_, ?_⟩
          · intro w hw
            rw [List.mem_singleton] at hw
            rw [hw]
            intro c hc
            rcases List.mem_append.mp hc with h | h
            · exact hlws c h
            · exact htws c h
          · rw [hc0]
            show rem = rem.take (chooseSplit rem) ++ (lws ++ tws) ++ interleave [] []
            rw [hrem]
            conv_lhs => rw [hdecomp]
            rw [hrem'nil]
            simp [interleave]
        · have hws'ne : ws' ≠ [] := by
            intro hw
            rw [hw] at hlen'
            exact hc0 (List.eq_nil_of_length_eq_zero hlen'.symm)
          refine ⟨lws :: extendLast ws' tws, ?_, ?_, ?_⟩
          · rw [List.length_cons, List.length_cons,
              extendLast_length ws' tws hws'ne, hlen']
          · intro w hw
            rcases List.mem_cons.mp hw with h | h
            · rw [h]; exact hlws
            · exact extendLast_all_ws ws' tws hws' htws w h
          · show rem = rem.take (chooseSplit rem) ++ lws ++
              interleave (splitGo n (trimStr (rem.drop (chooseSplit rem))))
                (extendLast ws' tws)
            rw [interleave_extendLast _ ws' tws hc0 hlen']
            rw [← heq']
            conv_lhs => rw [hrem]
            conv_lhs => rw [hdecomp]
            simp [List.append_assoc]

/-- Boundary selection follows the stated priority: the split index is the
latest paragraph break at or before the limit; failing that the latest line
break; failing that the latest space; and it is the hard cut `MAX_LENGTH`
exactly when no boundary exists in the searched range. -/
theorem chooseSplit_spec (rem : Str) :
    ((∃ j, j ≤ MAX_LENGTH ∧ occursAt ['\n', '\n'] rem j) →
      occursAt ['\n', '\n'] rem (chooseSplit rem) ∧
      ∀ j, j ≤ MAX_LENGTH → occursAt ['\n', '\n'] rem j → j ≤ chooseSplit rem) ∧
    ((∀ j, j ≤ MAX_LENGTH → ¬occursAt ['\n', '\n'] rem j) →
      (∃ j, j ≤ MAX_LENGTH ∧ occursAt ['\n'] rem j) →
      occursAt ['\n'] rem (chooseSplit rem) ∧
      ∀ j, j ≤ MAX_LENGTH → occursAt ['\n'] rem j → j ≤ chooseSplit rem) ∧
    ((∀ j, j ≤ MAX_LENGTH → ¬occursAt ['\n', '\n'] rem j) →
      (∀ j, j ≤ MAX_LENGTH → ¬occursAt ['\n'] rem j) →
      (∃ j, j ≤ MAX_LENGTH ∧ occursAt [' '] rem j) →
      occursAt [' '] rem (chooseSplit rem) ∧
      ∀ j, j ≤ MAX_LENGTH → occursAt [' '] rem j → j ≤ chooseSplit rem) ∧
    ((∀ j, j ≤ MAX_LENGTH → ¬occursAt ['\n', '\n'] rem j) →
      (∀ j, j ≤ MAX_LENGTH → ¬occursAt ['\n'] rem j) →
      (∀ j, j ≤ MAX_LENGTH → ¬occursAt [' '] rem j) →
      chooseSplit rem = MAX_LENGTH) := by
  have hnone : ∀ (pat : Str), pat ≠ [] →
      (∀ j, j ≤ MAX_LENGTH → ¬occursAt pat rem j) →
      lastIndexOfLe pat rem MAX_LENGTH = none := by
    intro pat hpat h
    cases heq : lastIndexOfLe pat rem MAX_LENGTH with
    | none => rfl
    | some k =>
      have hk := (lastIndexOfLe_spec pat rem MAX_LENGTH hpat).1 k heq
      exact absurd hk.2.1 (h k hk.1)
  refine ⟨?_, ?_, ?_, ?_⟩
  · rintro ⟨j, hj, hocc⟩
    cases h1 : lastIndexOfLe ['\n', '\n'] rem MAX_LENGTH with
    | none =>
      exact absurd hocc
        ((lastIndexOfLe_spec _ rem MAX_LENGTH (by simp)).2 h1 j hj)
    | some i =>
      have hi := (lastIndexOfLe_spec _ rem MAX_LENGTH (by simp)).1 i h1
      have hcs : chooseSplit rem = i := by
        unfold chooseSplit
        rw [h1]
      rw [hcs]
      exact ⟨hi.2.1, hi.2.2⟩
  · intro hno hex
    have h1 := hnone _ (by simp) hno
    obtain ⟨j, hj, hocc⟩ := hex
    cases h2 : lastIndexOfLe ['\n'] rem MAX_LENGTH with
    | none =>
      exact absurd hocc
        ((lastIndexOfLe_spec _ rem MAX_LENGTH (by simp)).2 h2 j hj)
    | some i =>
      have hi := (lastIndexOfLe_spec _ rem MAX_LENGTH (by simp)).1 i h2
      have hcs : chooseSplit rem = i := by
        unfold chooseSplit
        rw [h1, h2]
      rw [hcs]
      exact ⟨hi.2.1, hi.2.2⟩
  · intro hno1 hno2 hex
    have h1 := hnone _ (by simp) hno1
    have h2 := hnone _ (by simp) hno2
    obtain ⟨j, hj, hocc⟩ := hex
    cases h3 : lastIndexOfLe [' '] rem MAX_LENGTH with
    | none =>
      exact absurd hocc
        ((lastIndexOfLe_spec _ rem MAX_LENGTH (by simp)).2 h3 j hj)
    | some i =>
      have hi := (lastIndexOfLe_spec _ rem MAX_LENGTH (by simp)).1 i h3
      have hcs : chooseSplit rem = i := by
        unfold chooseSplit
        rw [h1, h2, h3]
      rw [hcs]
      exact ⟨hi.2.1, hi.2.2⟩
  · intro hno1 hno2 hno3
    have h1 := hnone _ (by simp) hno1
    have h2 := hnone _ (by simp) hno2
    have h3 := hnone _ (by simp) hno3
    unfold chooseSplit
    rw [h1, h2, h3]

/-- An input over the limit with a word boundary and trailing whitespace: the
trim step silently drops the trailing run. -/
def trailingWsText : Str :=
  List.replicate 1000 'a' ++ [' '] ++ List.replicate 905 'b' ++ [' ', ' ', ' ']

end Chunker

namespace Chunker

/-- When no occurrence starts at or before `pos`, the scan reports none. -/
theorem lastIndexOfLe_eq_none (pat s : Str) (pos : Nat) (hpat : pat ≠ [])
    (h : ∀ j, j ≤ pos → ¬occursAt pat s j) :
    lastIndexOfLe pat s pos = none := by
  cases heq : lastIndexOfLe pat s pos with
  | none => rfl
  | some k =>
    have hk := (lastIndexOfLe_spec pat s pos hpat).1 k heq
    exact absurd hk.2.1 (h k hk.1)

/-- An occurrence of a pattern puts its head character in the string. -/
theorem occursAt_head_mem {c : Char} {p s : Str} {j : Nat}
    (h : occursAt (c :: p) s j) : c ∈ s :=
  List.drop_subset j s (h.subset (List.mem_cons_self c p))

/-- The counterexample text contains no newline. -/
theorem newline_not_mem_trailingWsText : '\n' ∉ trailingWsText := by
  intro h
  rcases List.mem_append.mp h with h1 | h1
  · rcases List.mem_append.mp h1 with h2 | h2
    · rcases List.mem_append.mp h2 with h3 | h3
      · exact absurd (List.eq_of_mem_replicate h3) (by decide)
      · exact absurd (List.mem_singleton.mp h3) (by decide)
    · exact absurd (List.eq_of_mem_replicate h2) (by decide)
  · rcases List.mem_cons.mp h1 with h2 | h2
    · exact absurd h2 (by decide)
    · rcases List.mem_cons.mp h2 with h3 | h3
      · exact absurd h3 (by decide)
      · rcases List.mem_cons.mp h3 with h4 | h4
        · exact absurd h4 (by decide)
        · exact absurd h4 (by simp)

/-- The only space at or before index 1900 of the counterexample text is the
word boundary at index 1000. -/
theorem space_occ_trailingWsText (k : Nat) (hk : k ≤ 1900)
    (hocc : occursAt [' '] trailingWsText k) : k = 1000 := by
  have hhead : trailingWsText[k]? = some ' ' := by
    obtain ⟨t, ht⟩ := hocc
    rw [← List.head?_drop, ← ht]
    rfl
  by_contra hne
  rcases Nat.lt_or_ge k 1000 with hlt | hge
  · have ha : trailingWsText[k]? = some 'a' := by
      unfold trailingWsText
      rw [List.getElem?_append_left (by
        simp only [List.length_append, List.length_replicate, List.length_cons,
          List.length_nil]
        omega)]
      rw [List.getElem?_append_left (by
        simp only [List.length_append, List.length_replicate, List.length_cons,
          List.length_nil]
        omega)]
      rw [List.getElem?_append_left (by
        simp only [List.length_replicate]
        omega)]
      rw [List.getElem?_replicate]
      rw [if_pos hlt]
    rw [ha] at hhead
    simp at hhead
  · have hge' : 1001 ≤ k := by omega
    have hb : trailingWsText[k]? = some 'b' := by
      unfold trailingWsText
      rw [List.getElem?_append_left (by
        simp only [List.length_append, List.length_replicate, List.length_cons,
          List.length_nil]
        omega)]
      rw [List.getElem?_append_right (by
        simp only [List.length_append, List.length_replicate, List.length_cons,
          List.length_nil]
        omega)]
      have hidx : k - (List.replicate 1000 'a' ++ [' ']).length = k - 1001 := by
        simp only [List.length_append, List.length_replicate, List.length_cons,
          List.length_nil]
      rw [hidx]
      simp only [List.getElem?_replicate]
      rw [if_pos (by omega)]
    rw [hb] at hhead
    simp at hhead

/-- The boundary chosen for the counterexample text is the space at 1000. -/
theorem chooseSplit_trailingWsText : chooseSplit trailingWsText = 1000 := by
  have hnn : lastIndexOfLe ['\n', '\n'] trailingWsText MAX_LENGTH = none :=
    lastIndexOfLe_eq_none _ _ _ (by simp)
      (fun j _ hocc => newline_not_mem_trailingWsText (occursAt_head_mem hocc))
  have hnl : lastIndexOfLe ['\n'] trailingWsText MAX_LENGTH = none :=
    lastIndexOfLe_eq_none _ _ _ (by simp)
      (fun j _ hocc => newline_not_mem_trailingWsText (occursAt_head_mem hocc))
  have hocc1000 : occursAt [' '] trailingWsText 1000 := by
    unfold occursAt trailingWsText
    rw [List.append_assoc, List.append_assoc]
    rw [List.drop_left' (List.length_replicate 1000 'a')]
    exact ⟨_, rfl⟩
  have hsp : lastIndexOfLe [' '] trailingWsText MAX_LENGTH = some 1000 := by
    cases heq : lastIndexOfLe [' '] trailingWsText MAX_LENGTH with
    | none =>
      exact absurd hocc1000
        ((lastIndexOfLe_spec _ _ _ (by simp)).2 heq 1000 (by decide))
    | some k =>
      have hk := (lastIndexOfLe_spec _ _ _ (by simp)).1 k heq
      rw [space_occ_trailingWsText k hk.1 hk.2.1]
  unfold chooseSplit
  rw [hnn, hnl, hsp]

end Chunker

namespace Chunker

/-- Splitting the counterexample text: one cut at the space, and the trim
step discards both the boundary space and the trailing run. -/
theorem splitMessage_trailingWsText :
    splitMessage trailingWsText =
      [List.replicate 1000 'a', List.replicate 905 'b'] := by
  have hlen : trailingWsText.length = 1909 := by
    simp only [trailingWsText, List.length_append, List.length_replicate,
      List.length_cons, List.length_nil]
  have hne : trailingWsText ≠ [] := by
    intro h
    rw [h] at hlen
    simp at hlen
  have htake : trailingWsText.take 1000 = List.replicate 1000 'a' := by
    unfold trailingWsText
    rw [List.append_assoc, List.append_assoc]
    exact List.take_left' (List.length_replicate 1000 'a')
  have hdrop : trailingWsText.drop 1000 =
      [' '] ++ (List.replicate 905 'b' ++ [' ', ' ', ' ']) := by
    unfold trailingWsText
    rw [List.append_assoc, List.append_assoc]
    exact List.drop_left' (List.length_replicate 1000 'a')
  have hb905 : List.replicate 905 'b' = 'b' :: List.replicate 904 'b' := by
    rw [show (905 : Nat) = 904 + 1 from rfl, List.replicate_succ]
  have hd1 : ([' '] ++ (List.replicate 905 'b' ++ [' ', ' ', ' '])).dropWhile isWs =
      List.replicate 905 'b' ++ [' ', ' ', ' '] := by
    rw [List.singleton_append, List.dropWhile_cons]
    rw [if_pos (by decide)]
    rw [hb905, List.cons_append, List.dropWhile_cons]
    rw [if_neg (by decide)]
  have hd2 : (([' ', ' ', ' '] : Str) ++ List.replicate 905 'b').dropWhile isWs =
      List.replicate 905 'b' := by
    show ((' ' :: ' ' :: ' ' :: List.replicate 905 'b').dropWhile isWs = _)
    rw [List.dropWhile_cons, if_pos (by decide)]
    rw [List.dropWhile_cons, if_pos (by decide)]
    rw [List.dropWhile_cons, if_pos (by decide)]
    rw [hb905, List.dropWhile_cons, if_neg (by decide), ← hb905]
  have htrim : trimStr ([' '] ++ (List.replicate 905 'b' ++ [' ', ' ', ' '])) =
      List.replicate 905 'b' := by
    unfold trimStr
    rw [hd1]
    rw [List.reverse_append, List.reverse_replicate]
    rw [show ([' ', ' ', ' '] : Str).reverse = [' ', ' ', ' '] from rfl]
    rw [hd2]
    rw [List.reverse_replicate]
  have hstep1 : splitGo 1910 trailingWsText =
      trailingWsText.take (chooseSplit trailingWsText) ::
        splitGo 1909 (trimStr (trailingWsText.drop (chooseSplit trailingWsText))) := by
    show (if trailingWsText = [] then []
      else if trailingWsText.length ≤ MAX_LENGTH then [trailingWsText]
      else trailingWsText.take (chooseSplit trailingWsText) ::
        splitGo 1909 (trimStr (trailingWsText.drop (chooseSplit trailingWsText)))) = _
    rw [if_neg hne, if_neg (by rw [hlen]; decide)]
  have hstep2 : splitGo 1909 (List.replicate 905 'b') = [List.replicate 905 'b'] := by
    show (if List.replicate 905 'b' = ([] : Str) then []
      else if (List.replicate 905 'b').length ≤ MAX_LENGTH then [List.replicate 905 'b']
      else (List.replicate 905 'b').take (chooseSplit (List.replicate 905 'b')) ::
        splitGo 1908 (trimStr ((List.replicate 905 'b').drop
          (chooseSplit (List.replicate 905 'b'))))) = _
    rw [if_neg (by rw [hb905]; intro h; cases h),
      if_pos (by rw [List.length_replicate]; decide)]
  show splitGo (trailingWsText.length + 1) trailingWsText = _
  rw [hlen]
  rw [hstep1, chooseSplit_trailingWsText, htake, hdrop, htrim, hstep2]

end Chunker

/-- C7 counterexample: for the 1909-character input of `trailingWsText`
(1000 `a`s, a space, 905 `b`s, three trailing spaces) `splitMessage` returns
the two segments `a^1000` and `b^905`, yet no whitespace string `w` can be
reinserted at the single chosen boundary to reconstruct the input —
`a^1000 ++ w ++ b^905` always ends in `b` while the input ends in a space:
the trim step also removed the input's trailing whitespace, which lies at no
chosen boundary, so concatenating the segments with only the boundary
whitespace restored does not reconstruct the text exactly. -/
theorem splitMessage_no_exact_reconstruction :
    Chunker.splitMessage Chunker.trailingWsText =
      [List.replicate 1000 'a', List.replicate 905 'b'] ∧
    ¬ ∃ w : Chunker.Str, (∀ c ∈ w, Chunker.isWs c = true) ∧
      Chunker.trailingWsText =
        List.replicate 1000 'a' ++ w ++ List.replicate 905 'b' := by
  refine ⟨Chunker.splitMessage_trailingWsText, ?_⟩
  rintro ⟨w, hw, heq⟩
  have h1 : Chunker.trailingWsText.getLast? = some ' ' := by
    unfold Chunker.trailingWsText
    rw [List.getLast?_append]
    rfl
  have h2 : (List.replicate 1000 'a' ++ w ++ List.replicate 905 'b').getLast? =
      some 'b' := by
    rw [List.getLast?_append]
    have hb : (List.replicate 905 'b').getLast? = some 'b' := by
      rw [← List.head?_reverse, List.reverse_replicate]
      rw [show (905 : Nat) = 904 + 1 from rfl, List.replicate_succ]
      rfl
    rw [hb]
    rfl
  rw [heq, h2] at h1
  exact absurd (Option.some.inj h1) (by decide)

/-- C7 amended: every segment produced by `splitMessage` is at most
`MAX_LENGTH` (1900) characters; each split point is the latest paragraph
boundary at or before the limit, else the latest line boundary, else the
latest word boundary, and is a hard cut exactly when no boundary exists in
the searched range; and the input is reconstructed by concatenating the
segments with the whitespace run removed at each chosen boundary reinserted
after its segment, the final run additionally collecting the input's trimmed
trailing whitespace. -/
theorem splitMessage_chunks_spec :
    (∀ text : Chunker.Str, ∀ c ∈ Chunker.splitMessage text,
      c.length ≤ Chunker.MAX_LENGTH) ∧
    (∀ rem : Chunker.Str,
      ((∃ j, j ≤ Chunker.MAX_LENGTH ∧ Chunker.occursAt ['\n', '\n'] rem j) →
        Chunker.occursAt ['\n', '\n'] rem (Chunker.chooseSplit rem) ∧
        ∀ j, j ≤ Chunker.MAX_LENGTH → Chunker.occursAt ['\n', '\n'] rem j →
          j ≤ Chunker.chooseSplit rem) ∧
      ((∀ j, j ≤ Chunker.MAX_LENGTH → ¬Chunker.occursAt ['\n', '\n'] rem j) →
        (∃ j, j ≤ Chunker.MAX_LENGTH ∧ Chunker.occursAt ['\n'] rem j) →
        Chunker.occursAt ['\n'] rem (Chunker.chooseSplit rem) ∧
        ∀ j, j ≤ Chunker.MAX_LENGTH → Chunker.occursAt ['\n'] rem j →
          j ≤ Chunker.chooseSplit rem) ∧
      ((∀ j, j ≤ Chunker.MAX_LENGTH → ¬Chunker.occursAt ['\n', '\n'] rem j) →
        (∀ j, j ≤ Chunker.MAX_LENGTH → ¬Chunker.occursAt ['\n'] rem j) →
        (∃ j, j ≤ Chunker.MAX_LENGTH ∧ Chunker.occursAt [' '] rem j) →
        Chunker.occursAt [' '] rem (Chunker.chooseSplit rem) ∧
        ∀ j, j ≤ Chunker.MAX_LENGTH → Chunker.occursAt [' '] rem j →
          j ≤ Chunker.chooseSplit rem) ∧
      ((∀ j, j ≤ Chunker.MAX_LENGTH → ¬Chunker.occursAt ['\n', '\n'] rem j) →
        (∀ j, j ≤ Chunker.MAX_LENGTH → ¬Chunker.occursAt ['\n'] rem j) →
        (∀ j, j ≤ Chunker.MAX_LENGTH → ¬Chunker.occursAt [' '] rem j) →
        Chunker.chooseSplit rem = Chunker.MAX_LENGTH)) ∧
    (∀ text : Chunker.Str, ∃ ws : List Chunker.Str,
      ws.length = (Chunker.splitMessage text).length ∧
      (∀ w ∈ ws, ∀ c ∈ w, Chunker.isWs c = true) ∧
      text = Chunker.interleave (Chunker.splitMessage text) ws) := by
  refine ⟨?_, ?_, ?_⟩
  · intro text c hc
    exact Chunker.splitGo_chunk_le _ text c hc
  · intro rem
    exact Chunker.chooseSplit_spec rem
  · intro text
    exact Chunker.splitGo_reconstruct _ text (by omega)

/-- C7 witness: on the two-character input consisting of one paragraph break,
the boundary rule picks the paragraph break at index 0. -/
theorem splitMessage_chunks_spec_witness :
    ((0 : Nat) ≤ Chunker.MAX_LENGTH ∧
      Chunker.occursAt ['\n', '\n'] ['\n', '\n'] 0) ∧
    Chunker.occursAt ['\n', '\n'] ['\n', '\n']
      (Chunker.chooseSplit ['\n', '\n']) := by
  refine ⟨⟨by decide, by decide⟩, ?_⟩
  exact ((splitMessage_chunks_spec.2.1 ['\n', '\n']).1 ⟨0, by decide, by decide⟩).1
